import Mathlib

/-!
# Verification of the `rust_one_weekend` rendering core

A shallow embedding of the repository's rendering engine
(`shared.rs`, `object.rs`, `scene.rs`, `bvhiter.rs`, `render.rs`),
with `f32` modelled by exact rationals (`ℚ`), `f32::sqrt` by a total
rational square-root model, and machine integers by `Nat` with an
explicit `% 2^w` where overflow can occur.
-/

namespace RustOneWeekend

/-! ## Basic numeric model -/

/-- Largest `k ≤ n` with `k * k ≤ n`, by bounded linear search (structural,
so the kernel can evaluate it on closed inputs). -/
def natSqrtLin (n : ℕ) : ℕ :=
  (List.range (n + 1)).foldl (fun acc k => if k * k ≤ n then k else acc) 0

/-- Model of `f32::sqrt`: a total nonnegative rational square root,
exact on perfect squares, `0` on negative inputs (where `f32` yields NaN). -/
def ratSqrt (q : ℚ) : ℚ :=
  if q < 0 then 0 else mkRat (natSqrtLin q.num.toNat) (natSqrtLin q.den)

theorem ratSqrt_nonneg (q : ℚ) : 0 ≤ ratSqrt q := by
  unfold ratSqrt
  split
  · exact le_refl 0
  · rw [Rat.mkRat_eq_div]
    exact div_nonneg (by positivity) (by positivity)

theorem ratSqrt_one : ratSqrt 1 = 1 := by decide

/-- `f32::MAX`, the value of `TRACE_INFINITY` and of the packet miss sentinel
`TracePacketType::MAX` (shared.rs). -/
def f32MAX : ℚ := 2 ^ 128 - 2 ^ 104

/-- `TRACE_EPSILON` (shared.rs). -/
def TRACE_EPSILON : ℚ := 1 / 1000

/-- `TRACE_INFINITY` (shared.rs). -/
def TRACE_INFINITY : ℚ := f32MAX

/-! ## Vectors (`glam::Vec3` as used by the sources) -/

structure Vec3q where
  x : ℚ
  y : ℚ
  z : ℚ
deriving DecidableEq, Repr

def Vec3q.add (a b : Vec3q) : Vec3q := ⟨a.x + b.x, a.y + b.y, a.z + b.z⟩

def Vec3q.sub (a b : Vec3q) : Vec3q := ⟨a.x - b.x, a.y - b.y, a.z - b.z⟩

def Vec3q.neg (a : Vec3q) : Vec3q := ⟨-a.x, -a.y, -a.z⟩

def Vec3q.smul (k : ℚ) (a : Vec3q) : Vec3q := ⟨k * a.x, k * a.y, k * a.z⟩

def Vec3q.dot (a b : Vec3q) : ℚ := a.x * b.x + a.y * b.y + a.z * b.z

/-- `Vec3::length_squared`. -/
def Vec3q.length_squared (a : Vec3q) : ℚ := a.dot a

def Vec3q.zero : Vec3q := ⟨0, 0, 0⟩

/-- `Color = glam::Vec3` (shared.rs). -/
def Color := Vec3q
deriving DecidableEq, Repr

def Color.zero : Color := Vec3q.zero

def Color.one : Color := (⟨1, 1, 1⟩ : Vec3q)

def Color.add (a b : Color) : Color := Vec3q.add a b

def Color.mul (a b : Color) : Color :=
  (⟨Vec3q.x a * Vec3q.x b, Vec3q.y a * Vec3q.y b, Vec3q.z a * Vec3q.z b⟩ : Vec3q)

/-! ## Rays and queries (`shared.rs`) -/

/-- `Ray` (shared.rs): origin, direction, precomputed squared length. -/
structure Ray where
  origin : Vec3q
  direction : Vec3q
  direction_length_squared : ℚ
deriving DecidableEq, Repr

/-- `Ray::new` (shared.rs). -/
def Ray.new (origin direction : Vec3q) : Ray :=
  { origin := origin, direction := direction,
    direction_length_squared := direction.length_squared }

/-- `Ray::at` (shared.rs). -/
def Ray.at (r : Ray) (t : ℚ) : Vec3q := r.origin.add (Vec3q.smul t r.direction)

/-- `RayQuery` (shared.rs). -/
structure RayQuery where
  ray : Ray
  t_min : ℚ
  t_max : ℚ
deriving DecidableEq, Repr

/-! ## Hit records and spheres (`object.rs`) -/

/-- `HitRecord` (object.rs); the `Arc<dyn Material>` capability is modelled
by an opaque material identifier. -/
structure HitRecord where
  point : Vec3q
  normal : Vec3q
  t : ℚ
  front_face : Bool
  material : ℕ
deriving DecidableEq, Repr

/-- `HitRecord::new` (object.rs). -/
def HitRecord.new (ray : Ray) (t : ℚ) (outward_normal : Vec3q) (material : ℕ) :
    HitRecord :=
  let front_face : Bool := decide (ray.direction.dot outward_normal < 0)
  let normal := if front_face then outward_normal else outward_normal.neg
  { point := ray.at t, normal := normal, t := t, front_face := front_face,
    material := material }

/-- `Sphere` (object.rs). -/
structure Sphere where
  center : Vec3q
  radius : ℚ
  material : ℕ
  radius_rcp : ℚ
  radius_sq : ℚ
deriving DecidableEq, Repr

/-- `Sphere::new` (object.rs): unconditionally builds the struct, precomputing
`radius_rcp = 1.0 / radius` and `radius_sq = radius * radius`; it performs no
validation of `radius`. -/
def Sphere.new (center : Vec3q) (radius : ℚ) (material : ℕ) : Sphere :=
  { center := center, radius := radius, material := material,
    radius_rcp := 1 / radius, radius_sq := radius * radius }

/-- `let oc = r.origin - self.center` in `Sphere::intersect` (object.rs). -/
def Sphere.oc (s : Sphere) (q : RayQuery) : Vec3q := q.ray.origin.sub s.center

/-- `let half_b = oc.dot(r.direction)` (object.rs). -/
def Sphere.halfB (s : Sphere) (q : RayQuery) : ℚ := (s.oc q).dot q.ray.direction

/-- `let c = oc.length_squared() - self.radius_sq` (object.rs). -/
def Sphere.cTerm (s : Sphere) (q : RayQuery) : ℚ :=
  (s.oc q).length_squared - s.radius_sq

/-- `let discriminant = half_b * half_b - a * c` (object.rs), with
`a = r.direction_length_squared`. -/
def Sphere.disc (s : Sphere) (q : RayQuery) : ℚ :=
  s.halfB q * s.halfB q - q.ray.direction_length_squared * s.cTerm q

/-- The near root `(-half_b - sqrtd) / a` (object.rs). -/
def Sphere.root1 (s : Sphere) (q : RayQuery) : ℚ :=
  (-(s.halfB q) - ratSqrt (s.disc q)) / q.ray.direction_length_squared

/-- The far root `(-half_b + sqrtd) / a` (object.rs). -/
def Sphere.root2 (s : Sphere) (q : RayQuery) : ℚ :=
  (-(s.halfB q) + ratSqrt (s.disc q)) / q.ray.direction_length_squared

/-- The hit record built at parameter `t`:
`point = r.at(t)`, `outward_normal = (point - center) * radius_rcp` (object.rs). -/
def Sphere.hitAt (s : Sphere) (q : RayQuery) (t : ℚ) : HitRecord :=
  HitRecord.new q.ray t (Vec3q.smul s.radius_rcp ((q.ray.at t).sub s.center)) s.material

/-- `Sphere::intersect` (object.rs, `impl RayHittable for Sphere`): reject a
negative discriminant, try the near root against `[t_min, t_max]`, then the
far root, else no hit. -/
def Sphere.intersect (s : Sphere) (q : RayQuery) : Option HitRecord :=
  if s.disc q < 0 then none
  else if s.root1 q < q.t_min ∨ q.t_max < s.root1 q then
    if s.root2 q < q.t_min ∨ q.t_max < s.root2 q then none
    else some (s.hitAt q (s.root2 q))
  else some (s.hitAt q (s.root1 q))

theorem Sphere.hitAt_t (s : Sphere) (q : RayQuery) (t : ℚ) :
    (s.hitAt q t).t = t := rfl

theorem Sphere.root1_le_root2 (s : Sphere) (q : RayQuery)
    (ha : 0 < q.ray.direction_length_squared) : s.root1 q ≤ s.root2 q := by
  unfold Sphere.root1 Sphere.root2
  rw [div_le_div_iff₀ ha ha]
  nlinarith [ratSqrt_nonneg (s.disc q)]

/-- Any hit returned by `Sphere::intersect` has its `t` within the query's
`[t_min, t_max]` interval. -/
theorem Sphere.intersect_t_in_range (s : Sphere) (q : RayQuery) (h : HitRecord)
    (hh : s.intersect q = some h) : q.t_min ≤ h.t ∧ h.t ≤ q.t_max := by
  unfold Sphere.intersect at hh
  split at hh
  · exact absurd hh (by simp)
  · split at hh
    · split at hh
      · exact absurd hh (by simp)
      · rename_i hcond
        push_neg at hcond
        obtain rfl : s.hitAt q (s.root2 q) = h := by simpa using hh
        simpa [Sphere.hitAt_t] using hcond
    · rename_i hcond
      push_neg at hcond
      obtain rfl : s.hitAt q (s.root1 q) = h := by simpa using hh
      simpa [Sphere.hitAt_t] using hcond

/-- Shrinking `t_max` commutes with `Sphere::intersect`: against a shortened
interval the intersection returns the same hit when that hit's `t` still
fits, and no hit otherwise.  (Requires a genuine direction, `a > 0`.) -/
theorem Sphere.intersect_shrink (s : Sphere) (q : RayQuery) (tm : ℚ)
    (htm : tm ≤ q.t_max) (ha : 0 < q.ray.direction_length_squared) :
    s.intersect { q with t_max := tm } =
      (s.intersect q).bind (fun h => if h.t ≤ tm then some h else none) := by
  have hr12 : s.root1 q ≤ s.root2 q := s.root1_le_root2 q ha
  have hdisc : s.disc { q with t_max := tm } = s.disc q := rfl
  have hr1 : s.root1 { q with t_max := tm } = s.root1 q := rfl
  have hr2 : s.root2 { q with t_max := tm } = s.root2 q := rfl
  have hhit : s.hitAt { q with t_max := tm } = s.hitAt q := rfl
  unfold Sphere.intersect
  rw [hdisc, hr1, hr2, hhit]
  by_cases hd : s.disc q < 0
  · simp [hd]
  · simp only [hd, if_false]
    by_cases hc1 : s.root1 q < q.t_min ∨ q.t_max < s.root1 q
    · by_cases hc2 : s.root2 q < q.t_min ∨ q.t_max < s.root2 q
      · have l1 : s.root1 q < q.t_min ∨ tm < s.root1 q :=
          hc1.imp id (fun h => lt_of_le_of_lt htm h)
        have l2 : s.root2 q < q.t_min ∨ tm < s.root2 q :=
          hc2.imp id (fun h => lt_of_le_of_lt htm h)
        simp [hc1, hc2, l1, l2]
      · push_neg at hc2
        have hr1m : s.root1 q < q.t_min := by
          rcases hc1 with h | h
          · exact h
          · exact absurd (le_trans hr12 hc2.2) (not_le.mpr h)
        by_cases hle : s.root2 q ≤ tm
        · have nl2 : ¬(s.root2 q < q.t_min ∨ tm < s.root2 q) := by
            push_neg
            exact ⟨hc2.1, hle⟩
          simp [hc1, Or.inl hr1m, nl2, Sphere.hitAt_t, hle,
            not_lt.mpr hc2.1, not_lt.mpr hc2.2]
        · have l2 : s.root2 q < q.t_min ∨ tm < s.root2 q :=
            Or.inr (not_le.mp hle)
          simp [hc1, Or.inl hr1m, l2, Sphere.hitAt_t, hle,
            not_lt.mpr hc2.1, not_lt.mpr hc2.2]
    · push_neg at hc1
      by_cases hle : s.root1 q ≤ tm
      · have nl1 : ¬(s.root1 q < q.t_min ∨ tm < s.root1 q) := by
          push_neg
          exact ⟨hc1.1, hle⟩
        simp [nl1, Sphere.hitAt_t, hle, not_lt.mpr hc1.1, not_lt.mpr hc1.2]
      · have l1 : s.root1 q < q.t_min ∨ tm < s.root1 q :=
          Or.inr (not_le.mp hle)
        have l2 : s.root2 q < q.t_min ∨ tm < s.root2 q :=
          Or.inr (lt_of_lt_of_le (not_le.mp hle) hr12)
        simp [l1, l2, Sphere.hitAt_t, hle, not_lt.mpr hc1.1, not_lt.mpr hc1.2]

/-! ## The BVH and its allocation-free iterator (`bvhiter.rs`)

The `BVH` itself is built by the external `bvh` crate; per the spec's data
model it is a binary tree whose internal nodes carry two child bounding
boxes and whose leaves carry one primitive index.  We model the built tree
directly as that binary tree, and the external crate's ray/AABB slab test
as an opaque boolean predicate `hitbox` on boxes (it is a pure function of
the fixed ray being traversed). -/

/-- An axis-aligned bounding box (`bvh::aabb::AABB`). -/
structure AABB where
  min : Vec3q
  max : Vec3q
deriving DecidableEq, Repr

/-- A built BVH node (`bvh::bvh::BVHNode`), decoded from the crate's node
array into the binary tree it represents: internal nodes hold the two child
bounding boxes, leaves hold a primitive (shape) index. -/
inductive BVHTree where
  | leaf (shape_index : ℕ) : BVHTree
  | node (child_l_aabb : AABB) (child_l : BVHTree) (child_r_aabb : AABB)
      (child_r : BVHTree) : BVHTree
deriving DecidableEq, Repr

/-- Number of nodes of a (sub)tree. -/
def sizeT : BVHTree → ℕ
  | .leaf _ => 1
  | .node _ l _ r => 1 + sizeT l + sizeT r

/-- Number of leaves (= primitives assigned to the subtree). -/
def leafCount : BVHTree → ℕ
  | .leaf _ => 1
  | .node _ l _ r => leafCount l + leafCount r

/-- Number of nodes on a longest root-to-leaf path. -/
def height : BVHTree → ℕ
  | .leaf _ => 1
  | .node _ l _ r => 1 + max (height l) (height r)

theorem height_pos (t : BVHTree) : 1 ≤ height t := by
  cases t <;> simp [height]

/-- The mutable state of `BVHIterator` (bvhiter.rs): the explicit stack
(top first), the current node, and the `has_node` flag.  The Rust stack is
a fixed `[usize; 32]` array indexed by `stack_size`; its live portion is the
list, and claim C8 is about its length staying within 32. -/
structure IterState where
  stack : List BVHTree
  node_index : BVHTree
  has_node : Bool
deriving DecidableEq, Repr

/-- `BVHIterator::move_left` (bvhiter.rs): descend to the left child when
its box is hit, else clear `has_node`. -/
def moveLeft (hitbox : AABB → Bool) (st : IterState) : IterState :=
  match st.node_index with
  | .node la l _ _ =>
      if hitbox la then { st with node_index := l, has_node := true }
      else { st with has_node := false }
  | .leaf _ => { st with has_node := false }

/-- `BVHIterator::move_right` (bvhiter.rs). -/
def moveRight (hitbox : AABB → Bool) (st : IterState) : IterState :=
  match st.node_index with
  | .node _ _ ra r =>
      if hitbox ra then { st with node_index := r, has_node := true }
      else { st with has_node := false }
  | .leaf _ => { st with has_node := false }

/-- Outcome of one iteration of the `loop` in `BVHIterator::next`. -/
inductive StepResult where
  | done : StepResult
  | yield (shape_index : ℕ) (st : IterState) : StepResult
  | cont (st : IterState) : StepResult
deriving DecidableEq, Repr

/-- One iteration of the `loop` body of `BVHIterator::next` (bvhiter.rs):
finish when the stack is empty and there is no node; with a node, push it
and try to move left; otherwise pop, and either try to move right (internal
node) or yield the leaf's shape index. -/
def iterStep (hitbox : AABB → Bool) (st : IterState) : StepResult :=
  if st.stack = [] ∧ st.has_node = false then .done
  else if st.has_node then
    .cont (moveLeft hitbox { st with stack := st.node_index :: st.stack })
  else
    match st.stack with
    | [] => .done
    | top :: rest =>
        let st2 : IterState := { stack := rest, node_index := top, has_node := false }
        match top with
        | .node _ _ _ _ => .cont (moveRight hitbox st2)
        | .leaf shape_index => .yield shape_index st2

/-- Run `BVHIterator` to completion, collecting all yielded shape indices;
`fuel` bounds the number of loop iterations (the iterative walk is not
structurally recursive, but `2 * sizeT + 1` iterations provably complete
the traversal). -/
def runIter (hitbox : AABB → Bool) : ℕ → IterState → List ℕ
  | 0, _ => []
  | fuel + 1, st =>
      match iterStep hitbox st with
      | .done => []
      | .yield i st2 => i :: runIter hitbox fuel st2
      | .cont st2 => runIter hitbox fuel st2

/-- The reference form of the traversal: the conditional in-order walk
("test both children, recurse into hit ones"), which the iterative machine
is proved to implement. -/
def traverse (hitbox : AABB → Bool) : BVHTree → List ℕ
  | .leaf s => [s]
  | .node la l ra r =>
      (if hitbox la then traverse hitbox l else []) ++
      (if hitbox ra then traverse hitbox r else [])

/-- Exact number of loop iterations the machine spends on a subtree entered
with `has_node = true`. -/
def steps (hitbox : AABB → Bool) : BVHTree → ℕ
  | .leaf _ => 2
  | .node la l ra r =>
      1 + (if hitbox la then steps hitbox l else 0) + 1 +
      (if hitbox ra then steps hitbox r else 0)

theorem steps_le_two_size (hitbox : AABB → Bool) (t : BVHTree) :
    steps hitbox t ≤ 2 * sizeT t := by
  induction t with
  | leaf s => simp [steps, sizeT]
  | node la l ra r ihl ihr =>
      simp only [steps, sizeT]
      split <;> split <;> omega

theorem runIter_cont (hitbox : AABB → Bool) (fuel : ℕ) (st st2 : IterState)
    (h : iterStep hitbox st = .cont st2) :
    runIter hitbox (fuel + 1) st = runIter hitbox fuel st2 := by
  simp [runIter, h]

theorem runIter_yield (hitbox : AABB → Bool) (fuel : ℕ) (st st2 : IterState)
    (i : ℕ) (h : iterStep hitbox st = .yield i st2) :
    runIter hitbox (fuel + 1) st = i :: runIter hitbox fuel st2 := by
  simp [runIter, h]

theorem runIter_done (hitbox : AABB → Bool) (fuel : ℕ) (st : IterState)
    (h : iterStep hitbox st = .done) :
    runIter hitbox (fuel + 1) st = [] := by
  simp [runIter, h]

theorem iterStep_true (hitbox : AABB → Bool) (stack : List BVHTree)
    (cur : BVHTree) :
    iterStep hitbox ⟨stack, cur, true⟩ =
      StepResult.cont (moveLeft hitbox ⟨cur :: stack, cur, true⟩) := by
  unfold iterStep
  simp

theorem iterStep_false_nil (hitbox : AABB → Bool) (cur : BVHTree) :
    iterStep hitbox ⟨[], cur, false⟩ = StepResult.done := rfl

theorem iterStep_false_node (hitbox : AABB → Bool) (la : AABB) (l : BVHTree)
    (ra : AABB) (r : BVHTree) (rest : List BVHTree) (cur : BVHTree) :
    iterStep hitbox ⟨BVHTree.node la l ra r :: rest, cur, false⟩ =
      StepResult.cont (moveRight hitbox ⟨rest, BVHTree.node la l ra r, false⟩) := rfl

theorem iterStep_false_leaf (hitbox : AABB → Bool) (s : ℕ)
    (rest : List BVHTree) (cur : BVHTree) :
    iterStep hitbox ⟨BVHTree.leaf s :: rest, cur, false⟩ =
      StepResult.yield s ⟨rest, BVHTree.leaf s, false⟩ := rfl

theorem moveLeft_node_hit (hitbox : AABB → Bool) (la : AABB) (l : BVHTree)
    (ra : AABB) (r : BVHTree) (stack : List BVHTree) (h : hitbox la = true) :
    moveLeft hitbox ⟨stack, BVHTree.node la l ra r, true⟩ = ⟨stack, l, true⟩ := by
  simp [moveLeft, h]

theorem moveLeft_node_miss (hitbox : AABB → Bool) (la : AABB) (l : BVHTree)
    (ra : AABB) (r : BVHTree) (stack : List BVHTree) (h : hitbox la = false) :
    moveLeft hitbox ⟨stack, BVHTree.node la l ra r, true⟩ =
      ⟨stack, BVHTree.node la l ra r, false⟩ := by
  simp [moveLeft, h]

theorem moveLeft_leaf (hitbox : AABB → Bool) (s : ℕ) (stack : List BVHTree) :
    moveLeft hitbox ⟨stack, BVHTree.leaf s, true⟩ =
      ⟨stack, BVHTree.leaf s, false⟩ := rfl

theorem moveRight_node_hit (hitbox : AABB → Bool) (la : AABB) (l : BVHTree)
    (ra : AABB) (r : BVHTree) (stack : List BVHTree) (h : hitbox ra = true) :
    moveRight hitbox ⟨stack, BVHTree.node la l ra r, false⟩ = ⟨stack, r, true⟩ := by
  simp [moveRight, h]

theorem moveRight_node_miss (hitbox : AABB → Bool) (la : AABB) (l : BVHTree)
    (ra : AABB) (r : BVHTree) (stack : List BVHTree) (h : hitbox ra = false) :
    moveRight hitbox ⟨stack, BVHTree.node la l ra r, false⟩ =
      ⟨stack, BVHTree.node la l ra r, false⟩ := by
  simp [moveRight, h]

/-- The run of a `has_node = false` state does not depend on the stale
`node_index` (the pop overwrites it before reading). -/
theorem runIter_false_irrel (hitbox : AABB → Bool) (fuel : ℕ)
    (stack : List BVHTree) (c1 c2 : BVHTree) :
    runIter hitbox fuel ⟨stack, c1, false⟩ =
      runIter hitbox fuel ⟨stack, c2, false⟩ := by
  cases fuel with
  | zero => rfl
  | succ n =>
      cases stack with
      | nil => rfl
      | cons top rest => cases top <;> rfl

/-- Simulation of the iterative machine by the recursive walk: entered at a
subtree `t` with `has_node = true`, the machine spends `steps t` iterations
emitting exactly `traverse t` and then continues from the same stack with
`has_node = false`. -/
theorem runIter_descend (hitbox : AABB → Bool) (t : BVHTree) :
    ∀ (stack : List BVHTree) (fuel : ℕ),
      runIter hitbox (steps hitbox t + fuel) ⟨stack, t, true⟩ =
        traverse hitbox t ++ runIter hitbox fuel ⟨stack, t, false⟩ := by
  induction t with
  | leaf s =>
      intro stack fuel
      rw [show steps hitbox (BVHTree.leaf s) + fuel = (fuel + 1) + 1 by
        simp [steps]; omega]
      rw [runIter_cont hitbox _ _ _ (iterStep_true hitbox stack (BVHTree.leaf s))]
      rw [moveLeft_leaf]
      rw [runIter_yield hitbox _ _ _ _ (iterStep_false_leaf hitbox s stack (BVHTree.leaf s))]
      simp [traverse]
  | node la l ra r ihl ihr =>
      intro stack fuel
      by_cases hla : hitbox la = true
      · by_cases hra : hitbox ra = true
        · rw [show steps hitbox (BVHTree.node la l ra r) + fuel =
              (steps hitbox l + (steps hitbox r + fuel + 1)) + 1 by
            simp [steps, hla, hra]; omega]
          rw [runIter_cont hitbox _ _ _ (iterStep_true hitbox stack _)]
          rw [moveLeft_node_hit hitbox la l ra r _ hla]
          rw [ihl]
          rw [runIter_false_irrel hitbox _ _ l (BVHTree.node la l ra r)]
          rw [runIter_cont hitbox _ _ _ (iterStep_false_node hitbox la l ra r stack _)]
          rw [moveRight_node_hit hitbox la l ra r stack hra]
          rw [ihr]
          rw [runIter_false_irrel hitbox _ _ r (BVHTree.node la l ra r)]
          simp [traverse, hla, hra]
        · rw [show steps hitbox (BVHTree.node la l ra r) + fuel =
              (steps hitbox l + (fuel + 1)) + 1 by
            simp [steps, hla, hra]; omega]
          rw [runIter_cont hitbox _ _ _ (iterStep_true hitbox stack _)]
          rw [moveLeft_node_hit hitbox la l ra r _ hla]
          rw [ihl]
          rw [runIter_false_irrel hitbox _ _ l (BVHTree.node la l ra r)]
          rw [runIter_cont hitbox _ _ _ (iterStep_false_node hitbox la l ra r stack _)]
          rw [moveRight_node_miss hitbox la l ra r stack (by simp [hra])]
          simp [traverse, hla, hra]
      · by_cases hra : hitbox ra = true
        · rw [show steps hitbox (BVHTree.node la l ra r) + fuel =
              (steps hitbox r + fuel + 1) + 1 by
            simp [steps, hla, hra]; omega]
          rw [runIter_cont hitbox _ _ _ (iterStep_true hitbox stack _)]
          rw [moveLeft_node_miss hitbox la l ra r _ (by simp [hla])]
          rw [runIter_cont hitbox _ _ _ (iterStep_false_node hitbox la l ra r stack _)]
          rw [moveRight_node_hit hitbox la l ra r stack hra]
          rw [ihr]
          rw [runIter_false_irrel hitbox _ _ r (BVHTree.node la l ra r)]
          simp [traverse, hla, hra]
        · rw [show steps hitbox (BVHTree.node la l ra r) + fuel =
              (fuel + 1) + 1 by
            simp [steps, hla, hra]; omega]
          rw [runIter_cont hitbox _ _ _ (iterStep_true hitbox stack _)]
          rw [moveLeft_node_miss hitbox la l ra r _ (by simp [hla])]
          rw [runIter_cont hitbox _ _ _ (iterStep_false_node hitbox la l ra r stack _)]
          rw [moveRight_node_miss hitbox la l ra r stack (by simp [hra])]
          simp [traverse, hla, hra]

/-- A completed (`has_node = false`) state over an empty stack emits
nothing, whatever fuel remains. -/
theorem runIter_exhausted (hitbox : AABB → Bool) (fuel : ℕ) (cur : BVHTree) :
    runIter hitbox fuel ⟨[], cur, false⟩ = [] := by
  cases fuel with
  | zero => rfl
  | succ n => rfl

/-- The full candidate sequence of `BVHIterator` (bvhiter.rs): run the
machine from `BVHIterator::new`'s initial state (empty stack, root current,
`has_node = true`) to completion; `2 * sizeT t + 1` loop iterations always
suffice. -/
def bvhTraverse (hitbox : AABB → Bool) (t : BVHTree) : List ℕ :=
  runIter hitbox (2 * sizeT t + 1) ⟨[], t, true⟩

/-- The iterative traversal equals the conditional in-order walk. -/
theorem bvhTraverse_eq_traverse (hitbox : AABB → Bool) (t : BVHTree) :
    bvhTraverse hitbox t = traverse hitbox t := by
  have hs := steps_le_two_size hitbox t
  unfold bvhTraverse
  rw [show 2 * sizeT t + 1 = steps hitbox t + (2 * sizeT t + 1 - steps hitbox t) by
    omega]
  rw [runIter_descend, runIter_exhausted]
  simp

/-- `reachableB hitbox t p` holds when primitive index `p` sits in a leaf of
`t` all of whose guarding child boxes along the path are hit by the ray's
box test.  The BVH build contract (spec section 3: every internal node's
child box contains its child subtree's primitives) together with the
conservativeness of the slab test makes this a consequence of "the ray
intersects primitive `p`"; that implication is taken as a hypothesis since
box construction lives in the external `bvh` crate. -/
def reachableB (hitbox : AABB → Bool) : BVHTree → ℕ → Bool
  | .leaf s, p => decide (s = p)
  | .node la l ra r, p =>
      (hitbox la && reachableB hitbox l p) || (hitbox ra && reachableB hitbox r p)

theorem mem_traverse_of_reachable (hitbox : AABB → Bool) (t : BVHTree) (p : ℕ)
    (h : reachableB hitbox t p = true) : p ∈ traverse hitbox t := by
  induction t with
  | leaf s =>
      simp only [reachableB, decide_eq_true_eq] at h
      simp [traverse, h]
  | node la l ra r ihl ihr =>
      simp only [reachableB, Bool.or_eq_true, Bool.and_eq_true] at h
      rcases h with ⟨hla, hl⟩ | ⟨hra, hr⟩
      · simp [traverse, hla, List.mem_append]
        exact Or.inl (ihl hl)
      · have := ihr hr
        simp [traverse, hra, List.mem_append, this]

theorem traverse_length_le_leafCount (hitbox : AABB → Bool) (t : BVHTree) :
    (traverse hitbox t).length ≤ leafCount t := by
  induction t with
  | leaf s => simp [traverse, leafCount]
  | node la l ra r ihl ihr =>
      simp only [traverse, leafCount, List.length_append]
      have hl : (if hitbox la then traverse hitbox l else []).length ≤ leafCount l := by
        split
        · exact ihl
        · simp
      have hr : (if hitbox ra then traverse hitbox r else []).length ≤ leafCount r := by
        split
        · exact ihr
        · simp
      omega

/-! ## Scene closest-hit query (`scene.rs`) -/

/-- `Scene` (scene.rs): the primitive set (here: spheres, the one
representative `RayHittable`) and the optional built BVH. -/
structure Scene where
  objects : List Sphere
  bvh : Option BVHTree

/-- Default sphere standing in for an out-of-bounds `self.objects[idx]`
access (which would panic in Rust; the build contract keeps the iterator's
leaf indices in range). -/
def dfltSphere : Sphere := Sphere.new Vec3q.zero 1 0

/-- The `&self.objects[shape_idx]` lookup of `Scene::intersect`. -/
def objAt (objects : List Sphere) (shape_idx : ℕ) : Sphere :=
  objects.getD shape_idx dfltSphere

/-- The body of the `for shape_idx in bvh_iterator` loop of
`Scene::intersect` (scene.rs): intersect the candidate against the current
(already shortened) query, shrink `t_max` to the hit's `t` on a hit, and
keep the closer of current best and new hit under strict `<`. -/
def sceneIntersectStep (objects : List Sphere)
    (acc : Option HitRecord × RayQuery) (shape_idx : ℕ) :
    Option HitRecord × RayQuery :=
  let obj := objAt objects shape_idx
  let hit_option := obj.intersect acc.2
  let query2 : RayQuery :=
    match hit_option with
    | some h => { acc.2 with t_max := min acc.2.t_max h.t }
    | none => acc.2
  let closest2 : Option HitRecord :=
    match acc.1, hit_option with
    | none, _ => hit_option
    | some closest, some h => if h.t < closest.t then some h else some closest
    | some closest, none => some closest
  (closest2, query2)

/-- `Scene::intersect` (scene.rs): `None` without a built BVH, else fold the
loop body over the BVH iterator's candidates starting from no hit. -/
def Scene.intersect (sc : Scene) (hitbox : AABB → Bool) (query : RayQuery) :
    Option HitRecord :=
  match sc.bvh with
  | none => none
  | some t =>
      ((bvhTraverse hitbox t).foldl (sceneIntersectStep sc.objects)
        (none, query)).1

/-- The pure "first found wins ties" minimum: exactly the closest-hit update
of `Scene::intersect`, as a fold over an unshortened hit list. -/
def updMin (acc : Option HitRecord) (h : HitRecord) : Option HitRecord :=
  match acc with
  | none => some h
  | some b => if h.t < b.t then some h else some b

def firstMinHit (l : List HitRecord) : Option HitRecord := l.foldl updMin none

/-- `t_max` seen by the fold: the original `t_max` before any hit, the
current best hit's `t` afterwards. -/
def tmaxOf (query : RayQuery) (best : Option HitRecord) : ℚ :=
  match best with
  | none => query.t_max
  | some b => b.t


/-- Invariant of the `Scene::intersect` loop: starting from a best-so-far
hit (whose `t` lies in the original interval) and a query shortened to that
hit's `t`, the fold computes exactly the first-found strict minimum over
the hits the primitives report against the ORIGINAL query. -/
theorem sceneFold_spec (objects : List Sphere) (query : RayQuery)
    (ha : 0 < query.ray.direction_length_squared) (cands : List ℕ) :
    ∀ (best : Option HitRecord),
      (∀ b, best = some b → query.t_min ≤ b.t ∧ b.t ≤ query.t_max) →
      (cands.foldl (sceneIntersectStep objects)
        (best, { query with t_max := tmaxOf query best })).1 =
      (cands.filterMap
        (fun i => (objAt objects i).intersect query)).foldl updMin best := by
  induction cands with
  | nil =>
      intro best hbest
      rfl
  | cons i rest ih =>
      intro best hbest
      simp only [List.foldl_cons, List.filterMap_cons]
      cases best with
      | none =>
          rw [show ({ query with t_max := tmaxOf query none } : RayQuery) = query from rfl]
          cases hcase : (objAt objects i).intersect query with
          | none =>
              have hstep : sceneIntersectStep objects (none, query) i =
                  (none, query) := by
                simp [sceneIntersectStep, hcase]
              rw [hstep]
              simp only [hcase]
              exact ih none (by intro b hb; cases hb)
          | some h =>
              have hrange := Sphere.intersect_t_in_range _ _ _ hcase
              have hstep : sceneIntersectStep objects (none, query) i =
                  (some h, { query with t_max := h.t }) := by
                simp [sceneIntersectStep, hcase, min_eq_right hrange.2]
              rw [hstep]
              simp only [hcase]
              have := ih (some h) (by
                intro b hb
                cases hb
                exact hrange)
              simp only [tmaxOf] at this
              simpa [updMin] using this
      | some b =>
          have hb := hbest b rfl
          simp only [tmaxOf]
          have hshrink := Sphere.intersect_shrink (objAt objects i)
            query b.t hb.2 ha
          cases hcase : (objAt objects i).intersect query with
          | none =>
              have hmiss : (objAt objects i).intersect
                  { query with t_max := b.t } = none := by
                rw [hshrink, hcase]
                rfl
              have hstep : sceneIntersectStep objects
                  (some b, { query with t_max := b.t }) i =
                  (some b, { query with t_max := b.t }) := by
                simp [sceneIntersectStep, hmiss]
              rw [hstep]
              simp only [hcase]
              have := ih (some b) hbest
              simp only [tmaxOf] at this
              exact this
          | some h =>
              have hrange := Sphere.intersect_t_in_range _ _ _ hcase
              by_cases hle : h.t ≤ b.t
              · have hhit : (objAt objects i).intersect
                    { query with t_max := b.t } = some h := by
                  rw [hshrink, hcase]
                  simp [hle]
                by_cases hlt : h.t < b.t
                · have hstep : sceneIntersectStep objects
                      (some b, { query with t_max := b.t }) i =
                      (some h, { query with t_max := h.t }) := by
                    simp [sceneIntersectStep, hhit, min_eq_right hle, hlt]
                  rw [hstep]
                  simp only [hcase]
                  have := ih (some h) (by
                    intro x hx
                    cases hx
                    exact hrange)
                  simp only [tmaxOf] at this
                  simpa [updMin, hlt] using this
                · have heq : h.t = b.t := le_antisymm hle (not_lt.mp hlt)
                  have hstep : sceneIntersectStep objects
                      (some b, { query with t_max := b.t }) i =
                      (some b, { query with t_max := b.t }) := by
                    simp [sceneIntersectStep, hhit, min_eq_right hle, hlt, heq]
                  rw [hstep]
                  simp only [hcase]
                  have := ih (some b) hbest
                  simp only [tmaxOf] at this
                  simpa [updMin, hlt] using this
              · have hmiss : (objAt objects i).intersect
                    { query with t_max := b.t } = none := by
                  rw [hshrink, hcase]
                  simp [hle]
                have hstep : sceneIntersectStep objects
                    (some b, { query with t_max := b.t }) i =
                    (some b, { query with t_max := b.t }) := by
                  simp [sceneIntersectStep, hmiss]
                rw [hstep]
                simp only [hcase]
                have hnlt : ¬ h.t < b.t := fun hcon => hle (le_of_lt hcon)
                have := ih (some b) hbest
                simp only [tmaxOf] at this
                simpa [updMin, hnlt] using this

/-- One `updMin` application always produces a hit that is a minimum of the
accumulator and the new hit, preferring the accumulator on ties. -/
theorem updMin_isSome (acc : Option HitRecord) (h : HitRecord) :
    ∃ c, updMin acc h = some c ∧ c.t ≤ h.t ∧
      (∀ a, acc = some a → c.t ≤ a.t) ∧ (acc = some c ∨ c = h) := by
  cases acc with
  | none =>
      exact ⟨h, rfl, le_refl _, (by intro a ha; cases ha), Or.inr rfl⟩
  | some a0 =>
      by_cases hlt : h.t < a0.t
      · refine ⟨h, by simp [updMin, hlt], le_refl _, ?_, Or.inr rfl⟩
        intro a ha
        injection ha with ha
        rw [← ha]
        exact le_of_lt hlt
      · refine ⟨a0, by simp [updMin, hlt], not_lt.mp hlt, ?_, Or.inl rfl⟩
        intro a ha
        injection ha with ha
        rw [← ha]

/-- Any result of the first-found-minimum fold is one of the processed hits
(or the initial accumulator) and is `≤` all of them. -/
theorem foldl_updMin_some (l : List HitRecord) :
    ∀ (acc : Option HitRecord) (b : HitRecord), l.foldl updMin acc = some b →
      (acc = some b ∨ b ∈ l) ∧ (∀ a, acc = some a → b.t ≤ a.t) ∧
        ∀ h ∈ l, b.t ≤ h.t := by
  induction l with
  | nil =>
      intro acc b hacc
      refine ⟨Or.inl hacc, ?_, by simp⟩
      intro a ha
      rw [ha] at hacc
      injection hacc with hacc
      rw [hacc]
  | cons h l ih =>
      intro acc b hacc
      simp only [List.foldl_cons] at hacc
      obtain ⟨hmem, hle_acc, hle_l⟩ := ih (updMin acc h) b hacc
      obtain ⟨c, hc, hch, hca, hcm⟩ := updMin_isSome acc h
      have hbc : b.t ≤ c.t := hle_acc c hc
      refine ⟨?_, ?_, ?_⟩
      · rcases hmem with hmem | hmem
        · rw [hc] at hmem
          injection hmem with hmem
          subst hmem
          rcases hcm with hcm | hcm
          · exact Or.inl hcm
          · exact Or.inr (by simp [hcm])
        · exact Or.inr (List.mem_cons_of_mem _ hmem)
      · intro a ha
        exact le_trans hbc (hca a ha)
      · intro x hx
        rcases List.mem_cons.mp hx with hx | hx
        · subst hx
          exact le_trans hbc hch
        · exact hle_l x hx

/-- The first-found-minimum fold yields `none` only from an empty hit list
and empty accumulator. -/
theorem foldl_updMin_none (l : List HitRecord) :
    ∀ acc, l.foldl updMin acc = none → acc = none ∧ l = [] := by
  induction l with
  | nil =>
      intro acc h
      exact ⟨h, rfl⟩
  | cons h l ih =>
      intro acc hacc
      simp only [List.foldl_cons] at hacc
      obtain ⟨c, hc, -, -, -⟩ := updMin_isSome acc h
      obtain ⟨h1, -⟩ := ih _ hacc
      rw [hc] at h1
      cases h1

/-- C1: `Scene::intersect` returns the first-found minimal-`t` hit among the
hits the BVH candidates report within the caller's `[t_min, t_max]` (`None`
when there is no such hit); ties on `t` go to the earlier hit (strict `<`
comparison), and each loop step only ever shrinks `t_max` — to the latest
hit's `t` — and never widens it. -/
theorem c1_scene_intersect_nearest (sc : Scene) (hitbox : AABB → Bool)
    (t : BVHTree) (query : RayQuery) (hbvh : sc.bvh = some t)
    (ha : 0 < query.ray.direction_length_squared) :
    sc.intersect hitbox query =
      firstMinHit ((bvhTraverse hitbox t).filterMap
        (fun i => (objAt sc.objects i).intersect query)) ∧
    (∀ b, sc.intersect hitbox query = some b →
      b ∈ (bvhTraverse hitbox t).filterMap
        (fun i => (objAt sc.objects i).intersect query) ∧
      ∀ h ∈ (bvhTraverse hitbox t).filterMap
        (fun i => (objAt sc.objects i).intersect query), b.t ≤ h.t) ∧
    (sc.intersect hitbox query = none →
      (bvhTraverse hitbox t).filterMap
        (fun i => (objAt sc.objects i).intersect query) = []) ∧
    (∀ (acc : Option HitRecord × RayQuery) (i : ℕ),
      (sceneIntersectStep sc.objects acc i).2.t_max ≤ acc.2.t_max ∧
      (∀ h, (objAt sc.objects i).intersect acc.2 = some h →
        (sceneIntersectStep sc.objects acc i).2.t_max = min acc.2.t_max h.t)) := by
  have hmain : sc.intersect hitbox query =
      firstMinHit ((bvhTraverse hitbox t).filterMap
        (fun i => (objAt sc.objects i).intersect query)) := by
    unfold Scene.intersect
    rw [hbvh]
    exact sceneFold_spec sc.objects query ha (bvhTraverse hitbox t) none
      (by intro b hb; cases hb)
  refine ⟨hmain, ?_, ?_, ?_⟩
  · intro b hb
    rw [hmain] at hb
    obtain ⟨hmem, -, hle⟩ := foldl_updMin_some _ none b hb
    rcases hmem with hmem | hmem
    · cases hmem
    · exact ⟨hmem, hle⟩
  · intro hnone
    rw [hmain] at hnone
    exact (foldl_updMin_none _ none hnone).2
  · intro acc i
    constructor
    · cases hcase : (objAt sc.objects i).intersect acc.2 with
      | none => simp [sceneIntersectStep, hcase]
      | some h => simp [sceneIntersectStep, hcase]
    · intro h hcase
      simp [sceneIntersectStep, hcase]

/-- C2: if a primitive intersected by the ray is reachable in the BVH along
box tests that the ray passes — which the build contract (child boxes
contain child primitives) plus the conservativeness of the external slab
test guarantee for intersected primitives — then the `BVHIterator`
traversal yields its index, and the number of candidates yielded never
exceeds the leaf count (one leaf per primitive by the build contract). -/
theorem c2_traversal_complete_and_bounded
    (hitbox : AABB → Bool) (t : BVHTree) (sp : Sphere) (q : RayQuery) (p : ℕ)
    (hcontract : (sp.intersect q).isSome = true → reachableB hitbox t p = true)
    (hhit : (sp.intersect q).isSome = true) :
    p ∈ bvhTraverse hitbox t ∧
      (bvhTraverse hitbox t).length ≤ leafCount t := by
  constructor
  · rw [bvhTraverse_eq_traverse]
    exact mem_traverse_of_reachable hitbox t p (hcontract hhit)
  · rw [bvhTraverse_eq_traverse]
    exact traverse_length_le_leafCount hitbox t

/-! ## Stack safety of the traversal (claim C8)

The Rust stack is a fixed `[usize; 32]` array and `stack_push` writes
`self.stack[self.stack_size]` unguarded; the push is in bounds exactly when
the stack length is below 32 at the moment of the push.  We show every
reachable iterator state keeps a strictly-descending chain of subtrees on
the stack, so its length never exceeds the tree height. -/

/-- `subOf a b`: `a` is a proper subtree of `b`. -/
def subOf (a : BVHTree) : BVHTree → Bool
  | .leaf _ => false
  | .node _ l _ r => decide (a = l) || decide (a = r) || subOf a l || subOf a r

theorem subOf_left (a : BVHTree) (la ra : AABB) (l r : BVHTree)
    (h : a = l) : subOf a (BVHTree.node la l ra r) = true := by
  simp [subOf, h]

theorem subOf_right (a : BVHTree) (la ra : AABB) (l r : BVHTree)
    (h : a = r) : subOf a (BVHTree.node la l ra r) = true := by
  simp [subOf, h]

theorem subOf_of_left (a : BVHTree) (la ra : AABB) (l r : BVHTree)
    (h : subOf a l = true) : subOf a (BVHTree.node la l ra r) = true := by
  simp [subOf, h]

theorem subOf_of_right (a : BVHTree) (la ra : AABB) (l r : BVHTree)
    (h : subOf a r = true) : subOf a (BVHTree.node la l ra r) = true := by
  simp [subOf, h]

theorem subOf_trans (a b : BVHTree) :
    ∀ c, subOf a b = true → subOf b c = true → subOf a c = true := by
  intro c
  induction c with
  | leaf s =>
      intro _ hbc
      simp [subOf] at hbc
  | node lc l rc r ihl ihr =>
      intro hab hbc
      simp only [subOf, Bool.or_eq_true, decide_eq_true_eq] at hbc
      rcases hbc with ((hbc | hbc) | hbc) | hbc
      · exact subOf_of_left _ _ _ _ _ (hbc ▸ hab)
      · exact subOf_of_right _ _ _ _ _ (hbc ▸ hab)
      · exact subOf_of_left _ _ _ _ _ (ihl hab hbc)
      · exact subOf_of_right _ _ _ _ _ (ihr hab hbc)

theorem height_lt_of_subOf (a : BVHTree) :
    ∀ b, subOf a b = true → height a < height b := by
  intro b
  induction b with
  | leaf s =>
      intro h
      simp [subOf] at h
  | node lb l rb r ihl ihr =>
      intro h
      simp only [subOf, Bool.or_eq_true, decide_eq_true_eq] at h
      simp only [height]
      rcases h with ((h | h) | h) | h
      · subst h
        have := le_max_left (height a) (height r)
        omega
      · subst h
        have := le_max_right (height l) (height a)
        omega
      · have := ihl h
        have := le_max_left (height l) (height r)
        omega
      · have := ihr h
        have := le_max_right (height l) (height r)
        omega

/-- A strictly-descending chain starting at `a` has length bounded through
the heights: `length + height a ≤ height (last) + 1`. -/
theorem chain_length_aux (l : List BVHTree) :
    ∀ a, List.Chain' (fun x y => subOf x y = true) (a :: l) →
      (a :: l).length + height a ≤
        height ((a :: l).getLast (List.cons_ne_nil a l)) + 1 := by
  induction l with
  | nil =>
      intro a _
      simp [List.getLast]
      omega
  | cons b l2 ih =>
      intro a hch
      rw [List.chain'_cons] at hch
      have hab := height_lt_of_subOf a b hch.1
      have hib := ih b hch.2
      rw [List.getLast_cons (List.cons_ne_nil b l2)]
      simp only [List.length_cons] at hib ⊢
      omega

/-- A strictly-descending chain of subtrees of `r` has length at most
`height r`. -/
theorem chain_length_le_height (l : List BVHTree) (r : BVHTree)
    (hch : List.Chain' (fun x y => subOf x y = true) l)
    (hmem : ∀ a ∈ l, a = r ∨ subOf a r = true) :
    l.length ≤ height r := by
  cases l with
  | nil =>
      simp
  | cons a l2 =>
      have haux := chain_length_aux l2 a hch
      have hlast := hmem ((a :: l2).getLast (List.cons_ne_nil a l2))
        (List.getLast_mem _)
      have hha := height_pos a
      have hlr : height ((a :: l2).getLast (List.cons_ne_nil a l2)) ≤ height r := by
        rcases hlast with h | h
        · rw [h]
        · exact le_of_lt (height_lt_of_subOf _ _ h)
      omega

/-- One visible transition of `BVHIterator::next`'s loop (a `cont` step or a
yield). -/
def stepRel (hitbox : AABB → Bool) (s1 s2 : IterState) : Prop :=
  iterStep hitbox s1 = .cont s2 ∨ ∃ i, iterStep hitbox s1 = .yield i s2

/-- Invariant of the iterator state: the stack is a strictly-descending
chain of subtrees of the root, and the current node (when `has_node`) is a
proper subtree of the stack top (or the root / a subtree of it when the
stack is empty). -/
def IterInv (root : BVHTree) (st : IterState) : Prop :=
  List.Chain' (fun a b => subOf a b = true) st.stack ∧
  (∀ a ∈ st.stack, a = root ∨ subOf a root = true) ∧
  (st.has_node = true →
    match st.stack with
    | [] => st.node_index = root ∨ subOf st.node_index root = true
    | top :: _ => subOf st.node_index top = true)

theorem iterInv_init (root : BVHTree) : IterInv root ⟨[], root, true⟩ := by
  refine ⟨List.chain'_nil, by simp, ?_⟩
  intro _
  exact Or.inl rfl

theorem iterInv_step (hitbox : AABB → Bool) (root : BVHTree) (s1 s2 : IterState)
    (hinv : IterInv root s1) (hstep : stepRel hitbox s1 s2) : IterInv root s2 := by
  obtain ⟨hch, hmem, hcur⟩ := hinv
  obtain ⟨stack, cur, has⟩ := s1
  cases has with
  | true =>
      have hs := iterStep_true hitbox stack cur
      have hs2 : s2 = moveLeft hitbox ⟨cur :: stack, cur, true⟩ := by
        rcases hstep with h | ⟨i, h⟩
        · rw [hs] at h
          injection h with h
          exact h.symm
        · rw [hs] at h
          injection h
      have hcur' := hcur rfl
      have hchain2 : List.Chain' (fun a b => subOf a b = true) (cur :: stack) := by
        cases stack with
        | nil => simp
        | cons top rest =>
            rw [List.chain'_cons]
            exact ⟨hcur', hch⟩
      have hmem2 : ∀ a ∈ cur :: stack, a = root ∨ subOf a root = true := by
        intro a ha
        rcases List.mem_cons.mp ha with rfl | ha
        · cases stack with
          | nil => exact hcur'
          | cons top rest =>
              right
              rcases hmem top (by simp) with htop | htop
              · exact htop ▸ hcur'
              · exact subOf_trans _ _ _ hcur' htop
        · exact hmem a ha
      subst hs2
      cases cur with
      | leaf s =>
          rw [moveLeft_leaf]
          exact ⟨hchain2, hmem2, by intro h; simp at h⟩
      | node la l ra r =>
          by_cases hla : hitbox la = true
          · rw [moveLeft_node_hit _ _ _ _ _ _ hla]
            refine ⟨hchain2, hmem2, ?_⟩
            intro _
            exact subOf_left l la ra l r rfl
          · have hla' : hitbox la = false := by simpa using hla
            rw [moveLeft_node_miss _ _ _ _ _ _ hla']
            exact ⟨hchain2, hmem2, by intro h; simp at h⟩
  | false =>
      cases stack with
      | nil =>
          exfalso
          rcases hstep with h | ⟨i, h⟩ <;> rw [iterStep_false_nil] at h <;> injection h
      | cons top rest =>
          have hchtail : List.Chain' (fun a b => subOf a b = true) rest :=
            List.Chain'.tail hch
          have hmemrest : ∀ a ∈ rest, a = root ∨ subOf a root = true :=
            fun a ha => hmem a (List.mem_cons_of_mem _ ha)
          cases top with
          | leaf s =>
              have hs := iterStep_false_leaf hitbox s rest cur
              have hs2 : s2 = ⟨rest, BVHTree.leaf s, false⟩ := by
                rcases hstep with h | ⟨i, h⟩
                · rw [hs] at h
                  injection h
                · rw [hs] at h
                  injection h with h1 h2
                  exact h2.symm
              subst hs2
              exact ⟨hchtail, hmemrest, by intro h; simp at h⟩
          | node la l ra r =>
              have hs := iterStep_false_node hitbox la l ra r rest cur
              have hs2 : s2 = moveRight hitbox ⟨rest, BVHTree.node la l ra r, false⟩ := by
                rcases hstep with h | ⟨i, h⟩
                · rw [hs] at h
                  injection h with h
                  exact h.symm
                · rw [hs] at h
                  injection h
              subst hs2
              by_cases hra : hitbox ra = true
              · rw [moveRight_node_hit _ _ _ _ _ _ hra]
                refine ⟨hchtail, hmemrest, ?_⟩
                intro _
                have hrtop : subOf r (BVHTree.node la l ra r) = true :=
                  subOf_right r la ra l r rfl
                cases rest with
                | nil =>
                    right
                    rcases hmem (BVHTree.node la l ra r) (by simp) with htop | htop
                    · exact htop ▸ hrtop
                    · exact subOf_trans _ _ _ hrtop htop
                | cons t2 rest2 =>
                    have h12 : subOf (BVHTree.node la l ra r) t2 = true :=
                      (List.chain'_cons.mp hch).1
                    exact subOf_trans _ _ _ hrtop h12
              · have hra' : hitbox ra = false := by simpa using hra
                rw [moveRight_node_miss _ _ _ _ _ _ hra']
                exact ⟨hchtail, hmemrest, by intro h; simp at h⟩

theorem iterInv_reachable (hitbox : AABB → Bool) (root : BVHTree)
    (st : IterState)
    (hreach : Relation.ReflTransGen (stepRel hitbox) ⟨[], root, true⟩ st) :
    IterInv root st := by
  induction hreach with
  | refl => exact iterInv_init root
  | tail hsteps hstep ih => exact iterInv_step hitbox root _ _ ih hstep

/-- C8: in every state the traversal can reach, the live stack length stays
within the (≤ 32) tree height; in particular a `has_node = true` state —
the only kind that performs `stack_push` — has fewer than 32 entries, so
the unguarded `self.stack[self.stack_size]` write stays inside the 32-entry
array for any BVH of height at most 32. -/
theorem c8_traversal_stack_bounded (hitbox : AABB → Bool) (root : BVHTree)
    (st : IterState)
    (hreach : Relation.ReflTransGen (stepRel hitbox) ⟨[], root, true⟩ st)
    (hdepth : height root ≤ 32) :
    st.stack.length ≤ 32 ∧ (st.has_node = true → st.stack.length < 32) := by
  obtain ⟨hch, hmem, hcur⟩ := iterInv_reachable hitbox root st hreach
  have hlen := chain_length_le_height st.stack root hch hmem
  refine ⟨by omega, ?_⟩
  intro hhas
  have hcur' := hcur hhas
  have hch2 : List.Chain' (fun a b => subOf a b = true)
      (st.node_index :: st.stack) := by
    cases hstack : st.stack with
    | nil => simp
    | cons top rest =>
        rw [List.chain'_cons]
        rw [hstack] at hcur' hch
        exact ⟨hcur', hch⟩
  have hmem2 : ∀ a ∈ st.node_index :: st.stack, a = root ∨ subOf a root = true := by
    intro a ha
    rcases List.mem_cons.mp ha with rfl | ha
    · cases hstack : st.stack with
      | nil =>
          rw [hstack] at hcur'
          exact hcur'
      | cons top rest =>
          rw [hstack] at hcur'
          right
          rcases hmem top (by rw [hstack]; simp) with htop | htop
          · exact htop ▸ hcur'
          · exact subOf_trans _ _ _ hcur' htop
    · exact hmem a ha
  have hlen2 := chain_length_le_height _ root hch2 hmem2
  simp only [List.length_cons] at hlen2
  omega

/-! ## The recursive integrator (`render.rs`) -/

/-- `ScatterResult` (material.rs). -/
structure ScatterResult where
  attenuation : Color
  scattered_ray : Ray

/-- The `Material::scatter` capability (material.rs / spec section 6),
abstracted as a function of the hit's material identifier, the incoming ray
and the hit record; the concrete materials draw from a random source, which
is part of the opaque capability here. -/
def ScatterFn : Type := ℕ → Ray → HitRecord → Option ScatterResult

/-- The sky-gradient background of `ray_color`/`render_packet` (render.rs):
`unit_direction = ray.direction.normalize()`, `t = 0.5 * (unit_direction.y
+ 1.0)`, blend of white and `(0.5, 0.7, 1.0)`. -/
def backgroundColor (direction : Vec3q) : Color :=
  let len := ratSqrt direction.length_squared
  let unit_y := direction.y / len
  let t := (1 / 2 : ℚ) * (unit_y + 1)
  Vec3q.add (Vec3q.smul (1 - t) ⟨1, 1, 1⟩) (Vec3q.smul t ⟨1 / 2, 7 / 10, 1⟩)

/-- `ray_color` (render.rs): `depth <= 0` returns black; otherwise query the
scene on `[TRACE_EPSILON, TRACE_INFINITY]`, recurse through the material's
scatter with `depth - 1` multiplying by the attenuation, return black on
absorption and the background on a miss.  (The `ray_count` throughput
counter is an external side effect, not modelled.)  `hitbox` gives the
external crate's ray/box slab test for each ray. -/
def ray_color (scatter : ScatterFn) (hitbox : Ray → AABB → Bool) (sc : Scene)
    (ray : Ray) (depth : ℤ) : Color :=
  if depth ≤ 0 then Color.zero
  else
    let query : RayQuery :=
      { ray := ray, t_min := TRACE_EPSILON, t_max := TRACE_INFINITY }
    match sc.intersect (hitbox ray) query with
    | some hit =>
        match scatter hit.material ray hit with
        | some s =>
            Color.mul s.attenuation
              (ray_color scatter hitbox sc s.scattered_ray (depth - 1))
        | none => Color.zero
    | none => backgroundColor ray.direction
termination_by depth.toNat
decreasing_by omega

/-! ## Ray packets (`shared.rs`) and the packet integrator (`render.rs`) -/

/-- `TRACE_PACKET_SIZE` (shared.rs). -/
def TRACE_PACKET_SIZE : ℕ := 4

/-- `RayPacket` (shared.rs): the four SIMD lanes are modelled as functions
`Fin 4 → _`. -/
structure RayPacket where
  ray_origin_x : Fin 4 → ℚ
  ray_origin_y : Fin 4 → ℚ
  ray_origin_z : Fin 4 → ℚ
  ray_direction_x : Fin 4 → ℚ
  ray_direction_y : Fin 4 → ℚ
  ray_direction_z : Fin 4 → ℚ
  ray_t_min : Fin 4 → ℚ
  ray_t_max : Fin 4 → ℚ
  direction_length_squared : Fin 4 → ℚ
  mask : Fin 4 → Bool
  rays : Fin 4 → Ray
  is_ray_live : Fin 4 → Bool
  ray_live_count : ℕ

/-- `RayPacket::new` (shared.rs): all four lanes live, mask all-true,
`t` interval `[TRACE_EPSILON, TRACE_INFINITY]`, lane data from the rays. -/
def RayPacket.new (rays : Fin 4 → Ray) : RayPacket :=
  { ray_live_count := TRACE_PACKET_SIZE
    is_ray_live := fun _ => true
    rays := rays
    mask := fun _ => true
    ray_t_min := fun _ => TRACE_EPSILON
    ray_t_max := fun _ => TRACE_INFINITY
    ray_origin_x := fun i => (rays i).origin.x
    ray_origin_y := fun i => (rays i).origin.y
    ray_origin_z := fun i => (rays i).origin.z
    ray_direction_x := fun i => (rays i).direction.x
    ray_direction_y := fun i => (rays i).direction.y
    ray_direction_z := fun i => (rays i).direction.z
    direction_length_squared := fun i => (rays i).direction_length_squared }

/-- `RayPacket::update_ray` (shared.rs): replace lane `i`'s coordinates and
ray; the mask, live flags and live count are untouched. -/
def RayPacket.update_ray (p : RayPacket) (i : Fin 4) (ray : Ray) : RayPacket :=
  { p with
    ray_origin_x := Function.update p.ray_origin_x i ray.origin.x
    ray_origin_y := Function.update p.ray_origin_y i ray.origin.y
    ray_origin_z := Function.update p.ray_origin_z i ray.origin.z
    ray_direction_x := Function.update p.ray_direction_x i ray.direction.x
    ray_direction_y := Function.update p.ray_direction_y i ray.direction.y
    ray_direction_z := Function.update p.ray_direction_z i ray.direction.z
    direction_length_squared :=
      Function.update p.direction_length_squared i ray.direction_length_squared
    rays := Function.update p.rays i ray }

/-- `RayPacket::end_ray` (shared.rs): clear the mask lane and live flag and
decrement `ray_live_count`; the unchecked `usize` decrement is modelled with
two's-complement wraparound, underflowing to `2^64 - 1` when the count is
already zero. -/
def RayPacket.end_ray (p : RayPacket) (i : Fin 4) : RayPacket :=
  { p with
    mask := Function.update p.mask i false
    is_ray_live := Function.update p.is_ray_live i false
    ray_live_count := (p.ray_live_count + (2 ^ 64 - 1)) % 2 ^ 64 }

/-- Modelled from the spec: `Scene::intersect_packet` is called by
render.rs but absent from the sources (the scene.rs present defines only the
scalar query); per spec section 4.5 the packet variant performs the same
nearest-hit query lane-wise on each lane's ray and interval. -/
def Scene.intersect_packet (sc : Scene) (hitbox : Ray → AABB → Bool)
    (p : RayPacket) : Fin 4 → Option HitRecord :=
  fun i => sc.intersect (hitbox (p.rays i))
    { ray := p.rays i, t_min := p.ray_t_min i, t_max := p.ray_t_max i }

/-- The body of the `for i in 0..TRACE_PACKET_SIZE` loop of `render_packet`
(render.rs): skip dead lanes; on a hit either update the lane's ray and
record the attenuation (scatter) or end the ray (absorption); on a miss
write the background color and end the ray. -/
def renderPacketLane (scatter : ScatterFn)
    (intersect_results : Fin 4 → Option HitRecord)
    (acc : RayPacket × (Fin 4 → Color) × (Fin 4 → Color)) (i : Fin 4) :
    RayPacket × (Fin 4 → Color) × (Fin 4 → Color) :=
  let packet := acc.1
  let color_results := acc.2.1
  let attenuations := acc.2.2
  if packet.is_ray_live i then
    let ray := packet.rays i
    match intersect_results i with
    | some hit =>
        match scatter hit.material ray hit with
        | some s =>
            (packet.update_ray i s.scattered_ray, color_results,
              Function.update attenuations i s.attenuation)
        | none => (packet.end_ray i, color_results, attenuations)
    | none =>
        (packet.end_ray i,
          Function.update color_results i (backgroundColor ray.direction),
          attenuations)
  else acc

/-- `render_packet` (render.rs): `depth <= 0` returns all-black; otherwise
intersect the packet, run the lane loop (starting from all-black results and
all-one attenuations), and if any lane is still live recurse with
`depth - 1`, adding the recursed colors times the attenuations. -/
def render_packet (scatter : ScatterFn) (hitbox : Ray → AABB → Bool)
    (sc : Scene) (packet : RayPacket) (depth : ℤ) :
    (Fin 4 → Color) × RayPacket :=
  if depth ≤ 0 then (fun _ => Color.zero, packet)
  else
    let intersect_results := sc.intersect_packet hitbox packet
    let res := (List.finRange 4).foldl
      (renderPacketLane scatter intersect_results)
      (packet, fun _ => Color.zero, fun _ => Color.one)
    if res.1.ray_live_count > 0 then
      let rec_res := render_packet scatter hitbox sc res.1 (depth - 1)
      (fun i => Color.add (res.2.1 i) (Color.mul (rec_res.1 i) (res.2.2 i)),
        rec_res.2)
    else (res.2.1, res.1)
termination_by depth.toNat
decreasing_by omega

/-- C5: with a non-positive depth budget both `ray_color` and
`render_packet` return pure black for every ray/packet and every scene (the
recursion always passes `depth - 1`, so the budget bounds its depth). -/
theorem c5_depth_zero_black (scatter : ScatterFn) (hitbox : Ray → AABB → Bool)
    (sc : Scene) (ray : Ray) (packet : RayPacket) (depth : ℤ)
    (hd : depth ≤ 0) :
    ray_color scatter hitbox sc ray depth = Color.zero ∧
    (render_packet scatter hitbox sc packet depth).1 = fun _ => Color.zero := by
  constructor
  · rw [ray_color]
    simp [hd]
  · rw [render_packet]
    simp [hd]

/-! ## The packet live-lane invariant (claim C10) -/

/-- Number of lanes whose `is_ray_live` flag is set. -/
def countLive (p : RayPacket) : ℕ :=
  (Finset.univ.filter (fun i : Fin 4 => p.is_ray_live i = true)).card

/-- The live-lane bookkeeping invariant of `RayPacket`: `ray_live_count`
counts the live lanes, and the SIMD mask agrees with the live flags. -/
def PacketInv (p : RayPacket) : Prop :=
  p.ray_live_count = countLive p ∧ p.mask = p.is_ray_live

theorem countLive_le (p : RayPacket) : countLive p ≤ 4 := by
  unfold countLive
  calc (Finset.univ.filter (fun i : Fin 4 => p.is_ray_live i = true)).card
      ≤ (Finset.univ : Finset (Fin 4)).card := Finset.card_filter_le _ _
    _ = 4 := by simp

theorem countLive_pos (p : RayPacket) (i : Fin 4)
    (h : p.is_ray_live i = true) : 1 ≤ countLive p :=
  Finset.card_pos.mpr ⟨i, Finset.mem_filter.mpr ⟨Finset.mem_univ i, h⟩⟩

theorem countLive_end_ray_live (p : RayPacket) (i : Fin 4)
    (h : p.is_ray_live i = true) :
    countLive (p.end_ray i) = countLive p - 1 := by
  unfold countLive RayPacket.end_ray
  have hset : (Finset.univ.filter
      (fun j : Fin 4 => Function.update p.is_ray_live i false j = true)) =
      (Finset.univ.filter (fun j : Fin 4 => p.is_ray_live j = true)).erase i := by
    ext j
    by_cases hj : j = i
    · subst hj
      simp [Function.update_apply]
    · simp [Function.update_apply, hj]
  simp only []
  rw [hset, Finset.card_erase_of_mem (Finset.mem_filter.mpr ⟨Finset.mem_univ i, h⟩)]

theorem countLive_end_ray_dead (p : RayPacket) (i : Fin 4)
    (h : p.is_ray_live i = false) :
    countLive (p.end_ray i) = countLive p := by
  unfold countLive RayPacket.end_ray
  congr 1
  ext j
  by_cases hj : j = i
  · subst hj
    simp [Function.update_apply, h]
  · simp [Function.update_apply, hj]

/-- C10: `RayPacket::new` establishes the live-count invariant (all 4 lanes
live), `update_ray` preserves it, `end_ray` preserves it exactly when the
ended lane is currently live; ending an already-dead lane breaks it, and
with a zero count the unchecked `usize` decrement underflows to
`2^64 - 1`. -/
theorem c10_packet_live_invariant :
    (∀ rays, PacketInv (RayPacket.new rays)) ∧
    (∀ (p : RayPacket) (i : Fin 4) (r : Ray),
      PacketInv p → PacketInv (p.update_ray i r)) ∧
    (∀ (p : RayPacket) (i : Fin 4), PacketInv p → p.is_ray_live i = true →
      PacketInv (p.end_ray i)) ∧
    (∀ (p : RayPacket) (i : Fin 4), PacketInv p → p.is_ray_live i = false →
      ¬ PacketInv (p.end_ray i)) ∧
    (∀ (p : RayPacket) (i : Fin 4), p.ray_live_count = 0 →
      (p.end_ray i).ray_live_count = 2 ^ 64 - 1) := by
  refine ⟨?_, ?_, ?_, ?_, ?_⟩
  · intro rays
    constructor
    · show TRACE_PACKET_SIZE = countLive (RayPacket.new rays)
      simp [TRACE_PACKET_SIZE, countLive, RayPacket.new]
    · rfl
  · intro p i r hp
    exact hp
  · intro p i hp hl
    obtain ⟨hc, hm⟩ := hp
    constructor
    · show (p.ray_live_count + (2 ^ 64 - 1)) % 2 ^ 64 = countLive (p.end_ray i)
      rw [countLive_end_ray_live p i hl, hc]
      have h1 := countLive_pos p i hl
      have h4 := countLive_le p
      omega
    · show Function.update p.mask i false = Function.update p.is_ray_live i false
      rw [hm]
  · intro p i hp hl hinv2
    obtain ⟨hc, -⟩ := hp
    obtain ⟨hc2, -⟩ := hinv2
    rw [countLive_end_ray_dead p i hl] at hc2
    simp only [RayPacket.end_ray] at hc2
    have h4 := countLive_le p
    omega
  · intro p i h
    show (p.ray_live_count + (2 ^ 64 - 1)) % 2 ^ 64 = 2 ^ 64 - 1
    rw [h]
    omega

/-! ## Image blocking (`render.rs`), with `u32` wraparound semantics -/

/-- The `u32` modulus. -/
def U32 : ℕ := 2 ^ 32

/-- Wrapping `u32` addition (release-build semantics). -/
def u32add (a b : ℕ) : ℕ := (a + b) % U32

/-- Wrapping `u32` subtraction (for `b ≤ 2^32`). -/
def u32sub (a b : ℕ) : ℕ := (a + (U32 - b)) % U32

/-- Wrapping `u32` multiplication. -/
def u32mul (a b : ℕ) : ℕ := (a * b) % U32

/-- `ceil_div` (shared.rs): `(x + y - 1) / y` in `u32` arithmetic. -/
def ceil_div (x y : ℕ) : ℕ := u32sub (u32add x y) 1 / y

/-- `RenderBlock` (render.rs). -/
structure RenderBlock where
  x : ℕ
  y : ℕ
  width : ℕ
  height : ℕ
deriving DecidableEq, Repr

/-- `ImageBlocker` (render.rs); the mutable `block_index` cursor is modelled
by producing the whole block list. -/
structure ImageBlocker where
  image_width : ℕ
  image_height : ℕ
  block_width : ℕ
  block_height : ℕ
  block_count_x : ℕ
  block_count_y : ℕ

/-- `ImageBlocker::new` (render.rs): 32×32 blocks, ceil-div block counts. -/
def ImageBlocker.new (image_width image_height : ℕ) : ImageBlocker :=
  { image_width := image_width, image_height := image_height,
    block_width := 32, block_height := 32,
    block_count_x := ceil_div image_width 32,
    block_count_y := ceil_div image_height 32 }

/-- The body of `ImageBlocker::next` (render.rs) at cursor `block_index`;
note the source computes `y` from `block_width` (both dimensions are 32). -/
def ImageBlocker.blockAt (ib : ImageBlocker) (block_index : ℕ) : RenderBlock :=
  let block_x := block_index % ib.block_count_x
  let block_y := block_index / ib.block_count_x
  let x := u32mul block_x ib.block_width
  let y := u32mul block_y ib.block_width
  let x_end := min (u32mul (u32add block_x 1) ib.block_width) ib.image_width
  let y_end := min (u32mul (u32add block_y 1) ib.block_height) ib.image_height
  { x := x, y := y, width := u32sub x_end x, height := u32sub y_end y }

/-- The full block sequence of the iterator: `block_index` runs from `0`
while `< block_count_x * block_count_y` (a `u32` product). -/
def ImageBlocker.blocks (ib : ImageBlocker) : List RenderBlock :=
  (List.range (u32mul ib.block_count_x ib.block_count_y)).map ib.blockAt

/-- Pixel membership in a block's rectangle. -/
def RenderBlock.contains (b : RenderBlock) (px py : ℕ) : Prop :=
  b.x ≤ px ∧ px < b.x + b.width ∧ b.y ≤ py ∧ py < b.y + b.height

/-- The overflow-free value of `ImageBlocker::next` at cursor `i`. -/
def idealBlockAt (w h i : ℕ) : RenderBlock :=
  let bx := (w + 31) / 32
  let block_x := i % bx
  let block_y := i / bx
  { x := block_x * 32, y := block_y * 32,
    width := min ((block_x + 1) * 32) w - block_x * 32,
    height := min ((block_y + 1) * 32) h - block_y * 32 }

theorem ceil_div_32_eq (w : ℕ) (hw : w + 32 < U32) :
    ceil_div w 32 = (w + 31) / 32 := by
  unfold ceil_div u32add u32sub U32
  unfold U32 at hw
  omega

/-- Under no-overflow side conditions the block list is the ideal one. -/
theorem blocks_eq_ideal (w h : ℕ) (hw : w + 32 < U32) (hh : h + 32 < U32)
    (hc : ((w + 31) / 32) * ((h + 31) / 32) < U32) :
    (ImageBlocker.new w h).blocks =
      (List.range (((w + 31) / 32) * ((h + 31) / 32))).map (idealBlockAt w h) := by
  have hbx : ceil_div w 32 = (w + 31) / 32 := ceil_div_32_eq w hw
  have hby : ceil_div h 32 = (h + 31) / 32 := ceil_div_32_eq h hh
  unfold ImageBlocker.blocks ImageBlocker.new
  simp only [hbx, hby]
  rw [show u32mul ((w + 31) / 32) ((h + 31) / 32) =
      ((w + 31) / 32) * ((h + 31) / 32) from Nat.mod_eq_of_lt hc]
  apply List.map_congr_left
  intro i hi
  rw [List.mem_range] at hi
  have hbx0 : 0 < (w + 31) / 32 := by
    by_contra hz
    simp only [Nat.not_lt, Nat.le_zero] at hz
    rw [hz] at hi
    omega
  have hax : i % ((w + 31) / 32) < (w + 31) / 32 := Nat.mod_lt _ hbx0
  have hay : i / ((w + 31) / 32) < (h + 31) / 32 := by
    rw [Nat.div_lt_iff_lt_mul hbx0]
    calc i < (w + 31) / 32 * ((h + 31) / 32) := hi
      _ = (h + 31) / 32 * ((w + 31) / 32) := Nat.mul_comm _ _
  have h32w : 32 * ((w + 31) / 32) ≤ w + 31 := by omega
  have h32h : 32 * ((h + 31) / 32) ≤ h + 31 := by omega
  unfold ImageBlocker.blockAt idealBlockAt u32mul u32add u32sub U32
  unfold U32 at hw hh
  simp only [RenderBlock.mk.injEq]
  omega

/-- C6 (amended): provided the `u32` intermediates do not overflow
(`width + 32 < 2^32`, `height + 32 < 2^32`, and the block-count product is
below `2^32`), the generated `RenderBlock`s tile the image: every pixel lies
in exactly one block, and right/bottom blocks are clipped to the image. -/
theorem c6_blocks_partition (w h : ℕ)
    (hw : w + 32 < U32) (hh : h + 32 < U32)
    (hc : ((w + 31) / 32) * ((h + 31) / 32) < U32) :
    (∀ px py, px < w → py < h →
      ∃! i : ℕ, ∃ b, (ImageBlocker.new w h).blocks[i]? = some b ∧
        b.contains px py) ∧
    (∀ b ∈ (ImageBlocker.new w h).blocks,
      b.x + b.width ≤ w ∧ b.y + b.height ≤ h) := by
  rw [blocks_eq_ideal w h hw hh hc]
  constructor
  · intro px py hpx hpy
    set bx := (w + 31) / 32 with hbxdef
    set by' := (h + 31) / 32 with hbydef
    have hR : px / 32 < bx := by omega
    have hQ : py / 32 < by' := by omega
    have hbx0 : 0 < bx := by omega
    have hi0lt : bx * (py / 32) + px / 32 < bx * by' := by
      calc bx * (py / 32) + px / 32 < bx * (py / 32) + bx := by omega
        _ = bx * (py / 32 + 1) := by ring
        _ ≤ bx * by' := Nat.mul_le_mul_left bx (by omega)
    refine ⟨bx * (py / 32) + px / 32,
      ⟨idealBlockAt w h (bx * (py / 32) + px / 32), ?_, ?_⟩, ?_⟩
    · rw [List.getElem?_map, List.getElem?_range hi0lt]
      rfl
    · have hmod : (bx * (py / 32) + px / 32) % bx = px / 32 := by
        rw [Nat.mul_add_mod]
        exact Nat.mod_eq_of_lt hR
      have hdiv : (bx * (py / 32) + px / 32) / bx = py / 32 := by
        rw [Nat.mul_add_div hbx0, Nat.div_eq_of_lt hR]
        omega
      unfold idealBlockAt RenderBlock.contains
      simp only [← hbxdef, hmod, hdiv]
      refine ⟨by omega, by omega, by omega, by omega⟩
    · rintro j ⟨b, hb, hcont⟩
      rw [List.getElem?_map] at hb
      cases hrj : (List.range (bx * by'))[j]? with
      | none =>
          rw [hrj] at hb
          cases hb
      | some v =>
          rw [hrj] at hb
          obtain ⟨hjlen, hv⟩ := List.getElem?_eq_some_iff.mp hrj
          rw [List.getElem_range] at hv
          subst hv
          simp only [Option.map_some'] at hb
          injection hb with hb
          subst hb
          have hjlt : j < bx * by' := by simpa using hjlen
          unfold idealBlockAt RenderBlock.contains at hcont
          simp only [← hbxdef] at hcont
          have haxj : j % bx < bx := Nat.mod_lt _ hbx0
          have hmodj : j % bx = px / 32 := by omega
          have hayj : j / bx < by' := by
            rw [Nat.div_lt_iff_lt_mul hbx0]
            exact Nat.mul_comm bx by' ▸ hjlt
          have hdivj : j / bx = py / 32 := by omega
          have hda := Nat.div_add_mod j bx
          rw [hmodj, hdivj] at hda
          exact hda.symm
  · intro b hb
    rw [List.mem_map] at hb
    obtain ⟨i, hi, rfl⟩ := hb
    rw [List.mem_range] at hi
    have hbx0 : 0 < (w + 31) / 32 := by
      by_contra hz
      simp only [Nat.not_lt, Nat.le_zero] at hz
      rw [hz] at hi
      omega
    have hax : i % ((w + 31) / 32) < (w + 31) / 32 := Nat.mod_lt _ hbx0
    have hay : i / ((w + 31) / 32) < (h + 31) / 32 := by
      rw [Nat.div_lt_iff_lt_mul hbx0]
      calc i < (w + 31) / 32 * ((h + 31) / 32) := hi
        _ = (h + 31) / 32 * ((w + 31) / 32) := Nat.mul_comm _ _
    have h32w : 32 * ((w + 31) / 32) ≤ w + 31 := by omega
    have h32h : 32 * ((h + 31) / 32) ≤ h + 31 := by omega
    simp only [idealBlockAt]
    constructor <;> omega

/-- Counterexample to the original universally-quantified C6: at
`width = 2^32 - 1` the `u32` computation `(x + y - 1)` in `ceil_div`
overflows, `ImageBlocker` generates no blocks at all, and pixel `(0,0)` of
this nonempty image is covered by no block. -/
theorem c6_blocks_partition_counterexample :
    0 < (2 ^ 32 - 1 : ℕ) ∧ 0 < (32 : ℕ) ∧
    (ImageBlocker.new (2 ^ 32 - 1) 32).blocks = [] ∧
    ¬ ∃ b ∈ (ImageBlocker.new (2 ^ 32 - 1) 32).blocks, b.contains 0 0 := by
  refine ⟨by norm_num, by norm_num, by rfl, ?_⟩
  rintro ⟨b, hb, -⟩
  rw [show (ImageBlocker.new (2 ^ 32 - 1) 32).blocks = [] from rfl] at hb
  cases hb

theorem c6_blocks_partition_witness :
    (40 + 32 < U32 ∧ 40 + 32 < U32 ∧ ((40 + 31) / 32) * ((40 + 31) / 32) < U32) ∧
    (∀ px py, px < 40 → py < 40 →
      ∃! i : ℕ, ∃ b, (ImageBlocker.new 40 40).blocks[i]? = some b ∧
        b.contains px py) ∧
    (∀ b ∈ (ImageBlocker.new 40 40).blocks,
      b.x + b.width ≤ 40 ∧ b.y + b.height ≤ 40) :=
  ⟨⟨by decide, by decide, by decide⟩,
    c6_blocks_partition 40 40 (by decide) (by decide) (by decide)⟩

/-! ## Degenerate sphere construction (claim C9) -/

/-- Modelled from `f32` semantics: the IEEE-754 quotient `1.0 / r` of
finite `1.0` by finite `r` is a finite value exactly when `r ≠ 0` (at
`r = 0` it is `+inf`); the exact rational model cannot carry infinities, so
finiteness of the precomputed reciprocal is tracked by this predicate. -/
def f32RecipFinite (r : ℚ) : Bool := decide (r ≠ 0)

/-- Counterexample to C9: `Sphere::new` performs no validation at all — at
radius `0` it succeeds and returns the full struct, with `radius_rcp`
computed as the division `1.0 / 0.0`, which is not finite in `f32`; nothing
is rejected at construction time. -/
theorem c9_zero_radius_counterexample :
    Sphere.new ⟨0, 0, 0⟩ 0 0 =
      { center := ⟨0, 0, 0⟩, radius := 0, material := 0,
        radius_rcp := 1 / 0, radius_sq := 0 * 0 } ∧
    f32RecipFinite 0 = false :=
  ⟨rfl, rfl⟩

/-- C9 (amended): for every center and material, constructing a zero-radius
sphere succeeds (`Sphere::new` checks nothing), and the precomputed
`radius_rcp` is the quotient `1.0 / 0.0`, a non-finite `f32` value that the
construction silently stores (and `Sphere::intersect` later uses for the
outward normal). -/
theorem c9_zero_radius_not_rejected (center : Vec3q) (material : ℕ) :
    Sphere.new center 0 material =
      { center := center, radius := 0, material := material,
        radius_rcp := 1 / 0, radius_sq := 0 * 0 } ∧
    f32RecipFinite (Sphere.new center 0 material).radius = false :=
  ⟨rfl, rfl⟩

/-! ## The SIMD packet intersection (claim C4) -/

/-- One SIMD lane of `SphereSimd::intersect_packet` (object.rs): every
`packed_simd` operation is lane-wise, so a single lane is this scalar
computation — `discriminant.gt(0.0)` (strict), per-root strict range masks
against `(t_min, t_max)`, `hit_mask = (mask_a | mask_b) & disc_mask`, but
the returned root is `min(root_a, root_b)` regardless of which root passed
its mask, with `f32::MAX` as the miss sentinel.  (A negative discriminant
makes `sqrt` NaN in f32; that lane is masked off by `discriminant_mask`, so
the total rational sqrt model is observationally equal.) -/
def intersect_packet_lane (center : Vec3q) (radius_sq : ℚ) (origin dir : Vec3q)
    (dls t_min t_max : ℚ) : ℚ :=
  let oc_x := origin.x - center.x
  let oc_y := origin.y - center.y
  let oc_z := origin.z - center.z
  let a := dls
  let half_b := oc_x * dir.x + oc_y * dir.y + oc_z * dir.z
  let oc_length_squared := oc_x * oc_x + oc_y * oc_y + oc_z * oc_z
  let c := oc_length_squared - radius_sq
  let discriminant := half_b * half_b - a * c
  let discriminant_mask := decide (0 < discriminant)
  let sqrtd := ratSqrt discriminant
  let root_a := (-half_b - sqrtd) / a
  let root_b := (-half_b + sqrtd) / a
  let root := min root_a root_b
  let root_mask_a := decide (t_min < root_a) && decide (root_a < t_max)
  let root_mask_b := decide (t_min < root_b) && decide (root_b < t_max)
  let hit_mask := (root_mask_a || root_mask_b) && discriminant_mask
  if hit_mask then root else f32MAX

/-- C4 evaluated at the failing input: for a lane whose ray starts inside
the unit sphere (near root `-1` below `t_min`, far root `1` in range), the
scalar `Sphere::intersect` returns the far root `t = 1`, while
`SphereSimd::intersect_packet` returns `min(root_a, root_b) = -1` — a
parameter outside `[t_min, t_max]` — because the root selection ignores
the per-root masks; the packet path therefore does not reproduce the
scalar path's radiance for such rays (which dielectric interiors produce). -/
theorem c4_packet_scalar_divergence :
    ((Sphere.new ⟨0, 0, 0⟩ 1 0).intersect
        { ray := Ray.new ⟨0, 0, 0⟩ ⟨0, 0, 1⟩, t_min := TRACE_EPSILON,
          t_max := TRACE_INFINITY }).map HitRecord.t = some 1 ∧
    intersect_packet_lane ⟨0, 0, 0⟩ 1 ⟨0, 0, 0⟩ ⟨0, 0, 1⟩ 1 TRACE_EPSILON
      TRACE_INFINITY = -1 ∧
    (-1 : ℚ) < TRACE_EPSILON ∧ (1 : ℚ) ≠ -1 := by
  refine ⟨?_, ?_, by norm_num [TRACE_EPSILON], by norm_num⟩
  · norm_num [Sphere.intersect, Sphere.disc, Sphere.halfB, Sphere.cTerm,
      Sphere.oc, Sphere.root1, Sphere.root2, Sphere.hitAt, HitRecord.new,
      Sphere.new, Ray.new, Vec3q.sub, Vec3q.dot, Vec3q.length_squared,
      TRACE_EPSILON, TRACE_INFINITY, f32MAX, ratSqrt_one]
  · norm_num [intersect_packet_lane, TRACE_EPSILON, TRACE_INFINITY, f32MAX,
      ratSqrt_one]

/-! ## The worker's random source (claim C3) -/

/-- The possible origins of a worker's random number generator. -/
inductive RngSource where
  | scanlineSeeded : RngSource
  | threadLocalOsEntropy : RngSource
deriving DecidableEq, Repr

/-- The random source the render worker actually creates (render.rs,
`let mut rng = rand::thread_rng()` inside the per-block closure): the
thread-local generator seeded from OS entropy — not a generator seeded
deterministically from the pixel's scanline index. -/
def workerRngSource : RngSource := RngSource.threadLocalOsEntropy

/-- C3 evaluated on the code: the worker closure's random source is the
OS-entropy-seeded `thread_rng`, not a scanline-seeded one, so the premise
under which the claim asserts bit-identical two-run output does not hold of
`render_frame`, and repeated renders draw unrelated jitter/scatter
samples. -/
theorem c3_worker_rng_not_scanline_seeded :
    workerRngSource = RngSource.threadLocalOsEntropy ∧
    workerRngSource ≠ RngSource.scanlineSeeded :=
  ⟨rfl, by decide⟩

/-! ## Spiral dispatch order (claim C7)

`render_frame` (render.rs) iterates a `ChebyshevIterator` (external
`spiral` crate) around `(block_count_x/2 - 1, block_count_y/2 - 1)` with
radius `max(block_count_x, block_count_y)/2 + 1` cast to `u16`, discards
out-of-grid coordinates and pushes `blocks[block_y * block_count_x +
block_x]`.  The `i32` arithmetic is modelled on `ℤ` (all operands in play
are small and nonnegative, where Rust's truncating and Lean's Euclidean
division agree), the `as u16` cast by `% 2^16`. -/

/-- Chebyshev distance between two integer grid cells. -/
def chebyDist (x y cx cy : ℤ) : ℕ := max (x - cx).natAbs (y - cy).natAbs

/-- All integer points of the square of half-side `r` centered at
`(cx, cy)`. -/
def chebySquare (cx cy : ℤ) (r : ℕ) : List (ℤ × ℤ) :=
  (List.range (2 * r + 1)).flatMap fun j : ℕ =>
    (List.range (2 * r + 1)).map fun i : ℕ =>
      ((cx - (r : ℤ) + (i : ℤ), cy - (r : ℤ) + (j : ℤ)) : ℤ × ℤ)

/-- Modelled from the spec: the `spiral` crate's `ChebyshevIterator` yields
every point within Chebyshev distance `r` of the center exactly once, ring
by ring in nondecreasing distance. -/
def chebyshevPoints (cx cy : ℤ) (r : ℕ) : List (ℤ × ℤ) :=
  (List.range (r + 1)).flatMap fun d =>
    (chebySquare cx cy r).filter fun p => decide (chebyDist p.1 p.2 cx cy = d)

theorem mem_chebySquare (cx cy : ℤ) (r : ℕ) (p : ℤ × ℤ) :
    p ∈ chebySquare cx cy r ↔
      (p.1 - cx).natAbs ≤ r ∧ (p.2 - cy).natAbs ≤ r := by
  obtain ⟨x, y⟩ := p
  unfold chebySquare
  simp only [List.mem_flatMap, List.mem_map, List.mem_range, Prod.mk.injEq]
  constructor
  · rintro ⟨j, hj, i, hi, hx, hy⟩
    omega
  · rintro ⟨hx, hy⟩
    exact ⟨(y - (cy - r)).toNat, by omega, (x - (cx - r)).toNat, by omega,
      by omega, by omega⟩

theorem chebySquare_nodup (cx cy : ℤ) (r : ℕ) : (chebySquare cx cy r).Nodup := by
  unfold chebySquare
  rw [List.nodup_flatMap]
  constructor
  · intro j hj
    refine List.Nodup.map ?_ (List.nodup_range _)
    intro a b hab
    simp only [Prod.mk.injEq] at hab
    omega
  · refine (List.pairwise_lt_range _).imp ?_
    intro a b hab
    simp only [Function.onFun]
    intro p hpa hpb
    simp only [List.mem_map, List.mem_range] at hpa hpb
    obtain ⟨i1, hi1, rfl⟩ := hpa
    obtain ⟨i2, hi2, heq⟩ := hpb
    simp only [Prod.mk.injEq] at heq
    omega

theorem chebyshevPoints_nodup (cx cy : ℤ) (r : ℕ) :
    (chebyshevPoints cx cy r).Nodup := by
  unfold chebyshevPoints
  rw [List.nodup_flatMap]
  constructor
  · intro d hd
    exact (chebySquare_nodup cx cy r).filter _
  · refine (List.pairwise_lt_range _).imp ?_
    intro d1 d2 hd
    simp only [Function.onFun]
    intro p hp1 hp2
    rw [List.mem_filter, decide_eq_true_eq] at hp1 hp2
    omega

theorem mem_chebyshevPoints (cx cy : ℤ) (r : ℕ) (p : ℤ × ℤ) :
    p ∈ chebyshevPoints cx cy r ↔ chebyDist p.1 p.2 cx cy ≤ r := by
  unfold chebyshevPoints
  simp only [List.mem_flatMap, List.mem_range, List.mem_filter,
    decide_eq_true_eq, mem_chebySquare]
  constructor
  · rintro ⟨d, hd, ⟨h1, h2⟩, hdist⟩
    omega
  · intro h
    refine ⟨chebyDist p.1 p.2 cx cy, by omega, ⟨?_, ?_⟩, rfl⟩
    · unfold chebyDist at h
      omega
    · unfold chebyDist at h
      omega

theorem chebyshevPoints_sorted (cx cy : ℤ) (r : ℕ) :
    (chebyshevPoints cx cy r).Pairwise
      (fun p q => chebyDist p.1 p.2 cx cy ≤ chebyDist q.1 q.2 cx cy) := by
  unfold chebyshevPoints
  rw [List.pairwise_flatMap]
  constructor
  · intro d hd
    apply List.pairwise_of_forall_mem_list
    intro p hp q hq
    rw [List.mem_filter, decide_eq_true_eq] at hp hq
    omega
  · refine (List.pairwise_lt_range _).imp ?_
    intro d1 d2 hd p hp q hq
    rw [List.mem_filter, decide_eq_true_eq] at hp hq
    omega

/-- The spiral index list of `Renderer::render_frame` (render.rs): filter
out-of-grid spiral coordinates, then record each pushed block's index
`block_y * block_count_x + block_x`. -/
def spiralIndices (bx by' : ℤ) : List ℤ :=
  ((chebyshevPoints (bx / 2 - 1) (by' / 2 - 1)
      ((max bx by' / 2 + 1).toNat % 2 ^ 16)).filter
    (fun p => !(decide (p.1 < 0) || decide (bx ≤ p.1) || decide (p.2 < 0) ||
      decide (by' ≤ p.2)))).map
    (fun p => p.2 * bx + p.1)

/-- Chebyshev distance of a block index's grid cell from the spiral
center. -/
def blockIdxDist (bx by' j : ℤ) : ℕ :=
  chebyDist (j % bx) (j / bx) (bx / 2 - 1) (by' / 2 - 1)

theorem spiral_recover (bx x y : ℤ) (hx : 0 ≤ x) (hxlt : x < bx) :
    (y * bx + x) % bx = x ∧ (y * bx + x) / bx = y := by
  have hbx : bx ≠ 0 := by omega
  constructor
  · rw [show y * bx + x = x + bx * y by ring, Int.add_mul_emod_self_left]
    exact Int.emod_eq_of_lt hx hxlt
  · rw [show y * bx + x = x + y * bx by ring, Int.add_mul_ediv_right x y hbx]
    rw [Int.ediv_eq_zero_of_lt hx hxlt]
    omega

theorem spiral_filter_mem (bx by' : ℤ) (p : ℤ × ℤ) :
    (!(decide (p.1 < 0) || decide (bx ≤ p.1) || decide (p.2 < 0) ||
      decide (by' ≤ p.2))) = true ↔
      0 ≤ p.1 ∧ p.1 < bx ∧ 0 ≤ p.2 ∧ p.2 < by' := by
  simp only [Bool.not_eq_true', Bool.or_eq_false_iff, decide_eq_false_iff_not,
    not_lt, not_le]
  constructor
  · rintro ⟨⟨⟨h1, h2⟩, h3⟩, h4⟩
    exact ⟨h1, h2, h3, h4⟩
  · rintro ⟨h1, h2, h3, h4⟩
    exact ⟨⟨⟨h1, h2⟩, h3⟩, h4⟩

/-- C7 (amended): for block grids whose dimensions stay within `2^15` (so
the radius survives its `u16` cast and all `i32` arithmetic is exact), the
spiral dispatch list contains every block index exactly once, contains only
in-grid indices, and is ordered by nondecreasing Chebyshev distance from
the chosen center block. -/
theorem c7_spiral_dispatch (bx by' : ℤ) (hbx : 0 < bx) (hby : 0 < by')
    (hbx15 : bx ≤ 2 ^ 15) (hby15 : by' ≤ 2 ^ 15) :
    (∀ j : ℤ, 0 ≤ j → j < bx * by' → (spiralIndices bx by').count j = 1) ∧
    (∀ j ∈ spiralIndices bx by', 0 ≤ j ∧ j < bx * by') ∧
    (spiralIndices bx by').Pairwise
      (fun j1 j2 => blockIdxDist bx by' j1 ≤ blockIdxDist bx by' j2) := by
  have hnodup : (spiralIndices bx by').Nodup := by
    unfold spiralIndices
    refine List.Nodup.map_on ?_ ((chebyshevPoints_nodup _ _ _).filter _)
    intro p hp q hq hpq
    rw [List.mem_filter, spiral_filter_mem] at hp hq
    obtain ⟨-, hp1, hp2, hp3, hp4⟩ := hp
    obtain ⟨-, hq1, hq2, hq3, hq4⟩ := hq
    have hpr := spiral_recover bx p.1 p.2 hp1 hp2
    have hqr := spiral_recover bx q.1 q.2 hq1 hq2
    have h1 : p.1 = q.1 := by
      rw [← hpr.1, ← hqr.1, hpq]
    have h2 : p.2 = q.2 := by
      rw [← hpr.2, ← hqr.2, hpq]
    exact Prod.ext h1 h2
  have hvalid : ∀ j ∈ spiralIndices bx by', 0 ≤ j ∧ j < bx * by' := by
    intro j hj
    unfold spiralIndices at hj
    rw [List.mem_map] at hj
    obtain ⟨p, hp, rfl⟩ := hj
    rw [List.mem_filter, spiral_filter_mem] at hp
    obtain ⟨-, hp1, hp2, hp3, hp4⟩ := hp
    constructor
    · positivity
    · calc p.2 * bx + p.1 < p.2 * bx + bx := by omega
        _ = (p.2 + 1) * bx := by ring
        _ ≤ by' * bx := by
            apply mul_le_mul_of_nonneg_right (by omega) (by omega)
        _ = bx * by' := mul_comm _ _
  have hmem : ∀ j : ℤ, 0 ≤ j → j < bx * by' → j ∈ spiralIndices bx by' := by
    intro j hj0 hjlt
    have hx0 : 0 ≤ j % bx := Int.emod_nonneg j (by omega)
    have hxlt : j % bx < bx := Int.emod_lt_of_pos j hbx
    have hy0 : 0 ≤ j / bx := Int.ediv_nonneg hj0 (by omega)
    have heq := Int.ediv_add_emod j bx
    have hylt : j / bx < by' := by
      rcases Int.lt_or_le (j / bx) by' with h | h
      · exact h
      · exfalso
        have h1 : bx * by' ≤ bx * (j / bx) :=
          Int.mul_le_mul_of_nonneg_left h (by omega)
        omega
    unfold spiralIndices
    rw [List.mem_map]
    refine ⟨(j % bx, j / bx), ?_, ?_⟩
    · rw [List.mem_filter]
      constructor
      · rw [mem_chebyshevPoints]
        unfold chebyDist
        simp only []
        omega
      · rw [spiral_filter_mem]
        exact ⟨hx0, hxlt, hy0, hylt⟩
    · show (j / bx) * bx + j % bx = j
      rw [show (j / bx) * bx + j % bx = bx * (j / bx) + j % bx by ring]
      exact heq
  refine ⟨?_, hvalid, ?_⟩
  · intro j hj0 hjlt
    exact List.count_eq_one_of_mem hnodup (hmem j hj0 hjlt)
  · unfold spiralIndices
    rw [List.pairwise_map]
    refine List.Pairwise.imp_of_mem ?_
      (List.Pairwise.filter _ (chebyshevPoints_sorted _ _ _))
    intro p q hp hq hpq
    rw [List.mem_filter, spiral_filter_mem] at hp hq
    obtain ⟨-, hp1, hp2, hp3, hp4⟩ := hp
    obtain ⟨-, hq1, hq2, hq3, hq4⟩ := hq
    have hpr := spiral_recover bx p.1 p.2 hp1 hp2
    have hqr := spiral_recover bx q.1 q.2 hq1 hq2
    unfold blockIdxDist
    rw [hpr.1, hpr.2, hqr.1, hqr.2]
    exact hpq

/-- Counterexample to the original C7: a legal `u32` image size
(`4194272 × 32` pixels, i.e. a `131071 × 1` block grid) makes the radius
expression `max(bx, by)/2 + 1 = 65536` wrap to `0` in its `as u16` cast;
the spiral then visits only the (out-of-grid) center and the dispatch list
is empty, although the grid has blocks. -/
theorem c7_spiral_dispatch_counterexample :
    (ImageBlocker.new 4194272 32).block_count_x = 131071 ∧
    (ImageBlocker.new 4194272 32).block_count_y = 1 ∧
    spiralIndices 131071 1 = [] ∧ (0 : ℤ) < 131071 * 1 := by
  refine ⟨by decide, by decide, ?_, by decide⟩
  rfl

theorem c7_spiral_dispatch_witness :
    ((0 : ℤ) < 2 ∧ (0 : ℤ) < 2 ∧ (2 : ℤ) ≤ 2 ^ 15) ∧
    ((∀ j : ℤ, 0 ≤ j → j < 2 * 2 → (spiralIndices 2 2).count j = 1) ∧
     (∀ j ∈ spiralIndices 2 2, 0 ≤ j ∧ j < 2 * 2) ∧
     (spiralIndices 2 2).Pairwise
       (fun j1 j2 => blockIdxDist 2 2 j1 ≤ blockIdxDist 2 2 j2)) :=
  ⟨⟨by decide, by decide, by decide⟩,
    c7_spiral_dispatch 2 2 (by decide) (by decide) (by decide) (by decide)⟩

/-! ## Concrete instances used by the witnesses -/

/-- A concrete box (the box-test predicate is what traversal reads). -/
def wBox : AABB := ⟨⟨-1, -1, 4⟩, ⟨1, 1, 6⟩⟩

/-- A two-leaf BVH over primitives `0` and `1`. -/
def wTree : BVHTree := BVHTree.node wBox (BVHTree.leaf 0) wBox (BVHTree.leaf 1)

/-- Sphere of radius 1 at `(0,0,5)`. -/
def wSphereNear : Sphere := Sphere.new ⟨0, 0, 5⟩ 1 0

/-- Sphere of radius 1 at `(0,0,9)`. -/
def wSphereFar : Sphere := Sphere.new ⟨0, 0, 9⟩ 1 1

def wScene : Scene := { objects := [wSphereNear, wSphereFar], bvh := some wTree }

/-- A ray from the origin along `+z`, queried on `[0, 100]`. -/
def wQuery : RayQuery :=
  { ray := Ray.new ⟨0, 0, 0⟩ ⟨0, 0, 1⟩, t_min := 0, t_max := 100 }

theorem wQuery_dls_pos : 0 < wQuery.ray.direction_length_squared := by
  norm_num [wQuery, Ray.new, Vec3q.length_squared, Vec3q.dot]

theorem c1_scene_intersect_nearest_witness :
    wScene.bvh = some wTree ∧
    0 < wQuery.ray.direction_length_squared ∧
    wScene.intersect (fun _ => true) wQuery =
      firstMinHit ((bvhTraverse (fun _ => true) wTree).filterMap
        (fun i => (objAt wScene.objects i).intersect wQuery)) :=
  ⟨rfl, wQuery_dls_pos,
    (c1_scene_intersect_nearest wScene (fun _ => true) wTree wQuery rfl
      wQuery_dls_pos).1⟩

theorem wSphereNear_hit : (wSphereNear.intersect wQuery).isSome = true := by
  norm_num [Sphere.intersect, Sphere.disc, Sphere.halfB, Sphere.cTerm,
    Sphere.oc, Sphere.root1, Sphere.root2, wSphereNear, wQuery, Sphere.new,
    Ray.new, Vec3q.sub, Vec3q.dot, Vec3q.length_squared, ratSqrt_one]

theorem c2_traversal_complete_and_bounded_witness :
    (wSphereNear.intersect wQuery).isSome = true ∧
    0 ∈ bvhTraverse (fun _ => true) wTree ∧
      (bvhTraverse (fun _ => true) wTree).length ≤ leafCount wTree :=
  ⟨wSphereNear_hit,
    c2_traversal_complete_and_bounded (fun _ => true) wTree wSphereNear
      wQuery 0 (fun _ => by decide) wSphereNear_hit⟩

theorem c8_traversal_stack_bounded_witness :
    height wTree ≤ 32 ∧
    ((⟨[], wTree, true⟩ : IterState).stack.length ≤ 32 ∧
      ((⟨[], wTree, true⟩ : IterState).has_node = true →
        (⟨[], wTree, true⟩ : IterState).stack.length < 32)) :=
  ⟨by decide,
    c8_traversal_stack_bounded (fun _ => true) wTree ⟨[], wTree, true⟩
      Relation.ReflTransGen.refl (by decide)⟩

/-- An absorbing material capability. -/
def wScatterNone : ScatterFn := fun _ _ _ => none

def wRay : Ray := Ray.new ⟨0, 0, 0⟩ ⟨0, 0, 1⟩

def wPacket : RayPacket := RayPacket.new fun _ => wRay

theorem c5_depth_zero_black_witness :
    ((0 : ℤ) ≤ 0) ∧
    (ray_color wScatterNone (fun _ _ => true) wScene wRay 0 = Color.zero ∧
      (render_packet wScatterNone (fun _ _ => true) wScene wPacket 0).1 =
        fun _ => Color.zero) :=
  ⟨le_refl 0,
    c5_depth_zero_black wScatterNone (fun _ _ => true) wScene wRay wPacket 0
      (le_refl 0)⟩

theorem c10_packet_live_invariant_witness :
    PacketInv wPacket ∧ wPacket.is_ray_live 0 = true ∧
      PacketInv (wPacket.end_ray 0) :=
  ⟨c10_packet_live_invariant.1 (fun _ => wRay), by decide,
    c10_packet_live_invariant.2.2.1 wPacket 0
      (c10_packet_live_invariant.1 (fun _ => wRay)) (by decide)⟩

end RustOneWeekend
